import Mathlib

/-!
Shallow embedding of the ZeroOnePolynomials solver core
(`src/Term.hpp`, `src/Polynomial.hpp`, `src/Utilities.hpp`,
`src/ZeroSubstitution.hpp`, `src/System.hpp`, `src/Simplification.cpp`,
`src/ZeroOneSolver.cpp`) and verification of the specification claims.

Variable indices (`variable_index_t`, a signed 16-bit integer in the source)
are modelled as `Int`; all reachable indices are tiny, no arithmetic other
than construction-time additions occurs, and only equality comparisons are
performed on indices, so the embedding is faithful.
-/

namespace ZeroOneSolver

/-- `variable_index_t` from `Term.hpp`. -/
abbrev VarIndex := Int

/-- A `Term` represents a monomial of the form `1`, `p_i`, `q_j`, or
`p_i * q_j`; a zero index means the corresponding variable is absent. -/
structure Term where
  p_index : VarIndex
  q_index : VarIndex
  deriving DecidableEq, Repr

def Term.has_p (t : Term) : Bool := t.p_index ≠ 0

def Term.has_q (t : Term) : Bool := t.q_index ≠ 0

def Term.is_constant (t : Term) : Bool := !(t.has_p || t.has_q)

def Term.is_linear (t : Term) : Bool := t.has_p ^^ t.has_q

def Term.is_quadratic (t : Term) : Bool := t.has_p && t.has_q

/-- A `Polynomial` is a list of `Term`s representing their sum
(`Polynomial.hpp`). -/
abbrev Polynomial := List Term

def Polynomial.is_zero (P : Polynomial) : Bool := P.length = 0

def Polynomial.is_one (P : Polynomial) : Bool :=
  match P with
  | [] => false
  | t :: _ => P.length = 1 && t.is_constant

def Polynomial.is_zero_or_one (P : Polynomial) : Bool :=
  P.is_zero || P.is_one

/-- `contains` from `Utilities.hpp`: linear membership scan. -/
def contains {α : Type} [DecidableEq α] (collection : List α) (item : α) :
    Bool :=
  match collection with
  | [] => false
  | e :: rest => if e = item then true else contains rest item

/-- `drop` from `Utilities.hpp`: remove every element equal to `item`. -/
def drop {α : Type} [DecidableEq α] (collection : List α) (item : α) :
    List α :=
  collection.filter (fun e => !(decide (e = item)))

/-- `drop_all` from `Utilities.hpp`: remove every element of `items`. -/
def drop_all {α : Type} [DecidableEq α]
    (collection : List α) (items : List α) : List α :=
  collection.filter (fun e => !(contains items e))

/-- A batched zero substitution (`ZeroSubstitution.hpp`). -/
structure ZeroSubstitution where
  zeroed_ps : List VarIndex
  zeroed_qs : List VarIndex
  zeroed_terms : List Term
  deriving DecidableEq, Repr

def ZeroSubstitution.empty : ZeroSubstitution := ⟨[], [], []⟩

def ZeroSubstitution.is_empty (sub : ZeroSubstitution) : Bool :=
  sub.zeroed_ps.isEmpty && sub.zeroed_qs.isEmpty && sub.zeroed_terms.isEmpty

def ZeroSubstitution.set_p_zero (sub : ZeroSubstitution) (index : VarIndex) :
    ZeroSubstitution :=
  { sub with zeroed_ps := sub.zeroed_ps ++ [index] }

def ZeroSubstitution.set_q_zero (sub : ZeroSubstitution) (index : VarIndex) :
    ZeroSubstitution :=
  { sub with zeroed_qs := sub.zeroed_qs ++ [index] }

def ZeroSubstitution.set_zero (sub : ZeroSubstitution) (term : Term) :
    ZeroSubstitution :=
  if term.is_quadratic then
    { sub with zeroed_terms := sub.zeroed_terms ++ [term] }
  else if term.has_p then sub.set_p_zero term.p_index
  else if term.has_q then sub.set_q_zero term.q_index
  else sub

def ZeroSubstitution.set_zero_poly (sub : ZeroSubstitution) (P : Polynomial) :
    ZeroSubstitution :=
  P.foldl ZeroSubstitution.set_zero sub

def ZeroSubstitution.is_zeroed (sub : ZeroSubstitution) (term : Term) :
    Bool :=
  contains sub.zeroed_ps term.p_index ||
    contains sub.zeroed_qs term.q_index ||
      contains sub.zeroed_terms term

/-- The equation-system state (`System.hpp`): active variable indices of the
two families, individually zero-pinned terms, equations forced to sum to 1,
and equations with undetermined 0-or-1 right-hand side. -/
structure System where
  active_ps : List VarIndex
  active_qs : List VarIndex
  zeros : List Term
  ones : List Polynomial
  unknown : List Polynomial
  deriving DecidableEq, Repr

namespace System

def is_empty (S : System) : Bool :=
  S.active_ps.isEmpty && S.active_qs.isEmpty && S.zeros.isEmpty &&
    S.ones.isEmpty && S.unknown.isEmpty

/-- `System::has_unsatisfiable_equation`: an empty equation in `ones`, or an
equation in `ones` or `unknown` with two or more constant terms. -/
def has_unsatisfiable_equation (S : System) : Bool :=
  S.ones.any (fun P =>
      P.isEmpty || 2 ≤ (P.filter Term.is_constant).length) ||
    S.unknown.any (fun P => 2 ≤ (P.filter Term.is_constant).length)

/-- Variables that occur as a whole singleton `ones` equation (both factors
for a quadratic term), per the first loop of `System::is_solved`. -/
def solved_ps (S : System) : List VarIndex :=
  (S.ones.filterMap (fun P =>
      match P with
      | [t] => if t.has_p then some t.p_index else none
      | _ => none)) ++
    (S.unknown.filterMap (fun P =>
      match P with
      | [t] => if t.is_linear && t.has_p then some t.p_index else none
      | _ => none))

def solved_qs (S : System) : List VarIndex :=
  (S.ones.filterMap (fun P =>
      match P with
      | [t] => if t.has_q then some t.q_index else none
      | _ => none)) ++
    (S.unknown.filterMap (fun P =>
      match P with
      | [t] => if t.is_linear && t.has_q then some t.q_index else none
      | _ => none))

/-- `System::is_solved`: every active variable is pinned by a singleton
equation. -/
def is_solved (S : System) : Bool :=
  (drop_all S.active_ps S.solved_ps).isEmpty &&
    (drop_all S.active_qs S.solved_qs).isEmpty

/-- `System::apply`: eliminate the variables and terms named by a
`ZeroSubstitution`, resolving satisfied or falsified equations. -/
def apply (S : System) (sub : ZeroSubstitution) : System where
  active_ps := drop_all S.active_ps sub.zeroed_ps
  active_qs := drop_all S.active_qs sub.zeroed_qs
  zeros :=
    S.zeros.filter (fun t => !(sub.is_zeroed t)) ++
      sub.zeroed_terms.filter (fun t =>
        !(contains sub.zeroed_ps t.p_index) &&
          !(contains sub.zeroed_qs t.q_index))
  ones :=
    (S.ones.map (fun P => P.filter (fun t => !(sub.is_zeroed t)))).filter
      (fun P => !(Polynomial.is_one P))
  unknown :=
    (S.unknown.map (fun P =>
        P.filter (fun t => !(sub.is_zeroed t)))).filter
      (fun P => !(Polynomial.is_zero_or_one P))

/-- `System::set_p_zero`. -/
def set_p_zero (S : System) (p_index : VarIndex) : System where
  active_ps := drop S.active_ps p_index
  active_qs := S.active_qs
  zeros := S.zeros.filter (fun t => !(decide (t.p_index = p_index)))
  ones :=
    (S.ones.map (fun P =>
        P.filter (fun t => !(decide (t.p_index = p_index))))).filter
      (fun P => !(Polynomial.is_one P))
  unknown :=
    (S.unknown.map (fun P =>
        P.filter (fun t => !(decide (t.p_index = p_index))))).filter
      (fun P => !(Polynomial.is_zero_or_one P))

/-- `System::set_q_zero`. -/
def set_q_zero (S : System) (q_index : VarIndex) : System where
  active_ps := S.active_ps
  active_qs := drop S.active_qs q_index
  zeros := S.zeros.filter (fun t => !(decide (t.q_index = q_index)))
  ones :=
    (S.ones.map (fun P =>
        P.filter (fun t => !(decide (t.q_index = q_index))))).filter
      (fun P => !(Polynomial.is_one P))
  unknown :=
    (S.unknown.map (fun P =>
        P.filter (fun t => !(decide (t.q_index = q_index))))).filter
      (fun P => !(Polynomial.is_zero_or_one P))

/-- Replace `p_{k}` by `1` inside a term: the co-factor map used by
`System::set_p_one`. -/
def elimP (p_index : VarIndex) (t : Term) : Term :=
  ⟨if t.p_index = p_index then 0 else t.p_index, t.q_index⟩

/-- Replace `q_{k}` by `1` inside a term: the co-factor map used by
`System::set_q_one`. -/
def elimQ (q_index : VarIndex) (t : Term) : Term :=
  ⟨t.p_index, if t.q_index = q_index then 0 else t.q_index⟩

/-- The `ZeroSubstitution` accumulated by `System::set_p_one` from the
`zeros` entries containing `p_{k}`. -/
def pOneSub (S : System) (p_index : VarIndex) : ZeroSubstitution where
  zeroed_ps := []
  zeroed_qs :=
    (S.zeros.filter (fun t => decide (t.p_index = p_index))).map Term.q_index
  zeroed_terms := []

/-- The `ZeroSubstitution` accumulated by `System::set_q_one` from the
`zeros` entries containing `q_{k}`. -/
def qOneSub (S : System) (q_index : VarIndex) : ZeroSubstitution where
  zeroed_ps :=
    (S.zeros.filter (fun t => decide (t.q_index = q_index))).map Term.p_index
  zeroed_qs := []
  zeroed_terms := []

/-- The system built by the loops of `System::set_p_one` before the final
`apply`: `p_{k}` replaced by its co-factor everywhere, `zeros` entries
containing `p_{k}` moved out (into `pOneSub`). -/
def pOneInter (S : System) (p_index : VarIndex) : System where
  active_ps := drop S.active_ps p_index
  active_qs := S.active_qs
  zeros := S.zeros.filter (fun t => !(decide (t.p_index = p_index)))
  ones :=
    (S.ones.map (fun P => P.map (elimP p_index))).filter
      (fun P => !(Polynomial.is_one P))
  unknown :=
    (S.unknown.map (fun P => P.map (elimP p_index))).filter
      (fun P => !(Polynomial.is_zero_or_one P))

/-- The system built by the loops of `System::set_q_one` before the final
`apply`. -/
def qOneInter (S : System) (q_index : VarIndex) : System where
  active_ps := S.active_ps
  active_qs := drop S.active_qs q_index
  zeros := S.zeros.filter (fun t => !(decide (t.q_index = q_index)))
  ones :=
    (S.ones.map (fun P => P.map (elimQ q_index))).filter
      (fun P => !(Polynomial.is_one P))
  unknown :=
    (S.unknown.map (fun P => P.map (elimQ q_index))).filter
      (fun P => !(Polynomial.is_zero_or_one P))

/-- `System::set_p_one`: replace each occurrence of `p_{k}` by its
co-factor, then apply the zero substitution collected from `zeros`. -/
def set_p_one (S : System) (p_index : VarIndex) : System :=
  (pOneInter S p_index).apply (pOneSub S p_index)

/-- `System::set_q_one`. -/
def set_q_one (S : System) (q_index : VarIndex) : System :=
  (qOneInter S q_index).apply (qOneSub S q_index)

/-- The scan of `System::find_unknown_variable` over the `unknown` list. -/
def findUnknownVarAux : List Polynomial → Term
  | [] => ⟨0, 0⟩
  | [t] :: rest => if t.is_linear then t else findUnknownVarAux rest
  | _ :: rest => findUnknownVarAux rest

/-- `System::find_unknown_variable`: the first linear term occurring as the
whole of a singleton `unknown` equation, or `Term(0, 0)` if none exists. -/
def find_unknown_variable (S : System) : Term :=
  findUnknownVarAux S.unknown

end System

/-- One cell of the construction double loop in
`System::System(p_degree, q_degree)`: append the term derived from the
product-coefficient cell `(p, q)` to the equation of total degree
`p + q`. -/
def constructionStep (p_degree q_degree : Int) (acc : List Polynomial)
    (pq : Int × Int) : List Polynomial :=
  if (pq.1 = 0 && pq.2 = 0) || (pq.1 = p_degree && pq.2 = q_degree) then acc
  else
    acc.modify
      (fun P =>
        P ++ [⟨if pq.1 = p_degree then 0 else pq.1,
               if pq.2 = q_degree then 0 else pq.2⟩])
      (pq.1 + pq.2 - 1).toNat

/-- `System::System(p_degree, q_degree)`: the initial system for a degree
pair, with actives `1 .. degree - 1` and one undetermined equation per
total degree of the product. -/
def mkSystem (p_degree q_degree : Int) : System where
  active_ps := (List.range (p_degree - 1).toNat).map (fun k => (k : Int) + 1)
  active_qs := (List.range (q_degree - 1).toNat).map (fun k => (k : Int) + 1)
  zeros := []
  ones := []
  unknown :=
    (((List.range (p_degree + 1).toNat).map (fun p =>
        (List.range (q_degree + 1).toNat).map (fun q =>
          ((p : Int), (q : Int))))).flatten).foldl
      (constructionStep p_degree q_degree)
      (List.replicate (p_degree + q_degree - 1).toNat [])

/-- The scan of the forced-one loop of `simplify` (`Simplification.cpp`,
lines 43-125): the first `ones` equation consisting of a single
non-constant term. -/
def findOnesSingleton : List Polynomial → Option Term
  | [] => none
  | [t] :: rest =>
    if t.is_quadratic || t.has_p || t.has_q then some t
    else findOnesSingleton rest
  | _ :: rest => findOnesSingleton rest

/-- The constant-term-elimination batch of `simplify` (`Simplification.cpp`,
lines 127-168): every equation of `ones` and then of `unknown` that
contains a constant term contributes all of its terms. -/
def buildSub (S : System) : ZeroSubstitution :=
  let afterOnes :=
    S.ones.foldl
      (fun sub P =>
        if P.any Term.is_constant then sub.set_zero_poly P else sub)
      ZeroSubstitution.empty
  S.unknown.foldl
    (fun sub P =>
      if P.any Term.is_constant then sub.set_zero_poly P else sub)
    afterOnes

/-- The dispatch on the first singleton `ones` equation in `simplify`:
quadratic pins both factors to one, a linear term pins its variable. -/
def onesSingletonStep (S : System) (t : Term) : System :=
  if t.is_quadratic then (S.set_p_one t.p_index).set_q_one t.q_index
  else if t.has_p then S.set_p_one t.p_index
  else S.set_q_one t.q_index

/-- Fuel-indexed embedding of `ZeroOneSolver::simplify`
(`Simplification.cpp`): `none` means the fuel ran out (shown impossible for
fuel exceeding `measure` below); `some none` is the C++ `std::nullopt`
(contradictory, solved, or emptied system); `some (some S)` is a returned
fixed point. -/
def simplifyF : Nat → System → Option (Option System)
  | 0, _ => none
  | fuel + 1, S =>
    if S.has_unsatisfiable_equation then some none
    else if S.is_solved then some none
    else
      match findOnesSingleton S.ones with
      | some t =>
        let result := onesSingletonStep S t
        if result.is_empty then some none else simplifyF fuel result
      | none =>
        let sub := buildSub S
        if sub.is_empty then some (some S)
        else
          let result := S.apply sub
          if result.is_empty then some none else simplifyF fuel result

/-- Total number of term occurrences across a list of equations. -/
def polysTerms (l : List Polynomial) : Nat :=
  (l.map List.length).sum

/-- The termination measure for `simplify`: active variables, pinned zero
terms, and term occurrences in the two equation partitions. -/
def measure (S : System) : Nat :=
  S.active_ps.length + S.active_qs.length + S.zeros.length +
    polysTerms S.ones + polysTerms S.unknown

/-- `ZeroOneSolver::simplify`, run with provably sufficient fuel. -/
def simplify (S : System) : Option System :=
  (simplifyF (measure S + 1) S).join

/-- `move_unknown_to_zero` (`ZeroOneSolver.cpp`): the selected `unknown`
equation is forced to sum to zero, batch-zeroing each of its terms. -/
def move_unknown_to_zero (S : System) (index : Nat) : System :=
  S.apply (ZeroSubstitution.empty.set_zero_poly (S.unknown.getD index []))

/-- `move_unknown_to_one` (`ZeroOneSolver.cpp`): the selected `unknown`
equation is moved into the `ones` partition. -/
def move_unknown_to_one (S : System) (index : Nat) : System where
  active_ps := S.active_ps
  active_qs := S.active_qs
  zeros := S.zeros
  ones := S.ones ++ [S.unknown.getD index []]
  unknown := S.unknown.eraseIdx index

/-- The strict-minimum scan of `analyze` over `unknown` equation lengths
(`ZeroOneSolver.cpp`, lines 230-238); returns the index of the first
equation of minimal length. -/
def bestIndexGo : Nat → Nat → Nat → List Polynomial → Nat
  | _, best, _, [] => best
  | k, best, bestLen, P :: rest =>
    if P.length < bestLen then bestIndexGo (k + 1) k P.length rest
    else bestIndexGo (k + 1) best bestLen rest

def findBestIndex : List Polynomial → Nat
  | [] => 0
  | P :: rest => bestIndexGo 1 0 P.length rest

/-- The observable decisions of the search driver `analyze`: each branch
kind in source order, and each emitted leaf system. -/
inductive SearchEvent where
  | branchP (p_index : VarIndex)
  | branchQ (q_index : VarIndex)
  | branchZ (t : Term)
  | branchU (index : Nat)
  | leaf (S : System)
  deriving DecidableEq, Repr

/-- Fuel-indexed embedding of `analyze` (`ZeroOneSolver.cpp`): the returned
list records every branch decision (in exploration order, the zero or
"false" case first) and every leaf system handed to the output
collaborator. `none` means the recursion-depth fuel ran out. -/
def analyzeF : Nat → System → Option (List SearchEvent)
  | 0, _ => none
  | fuel + 1, S =>
    if S.is_empty then some []
    else
      match simplify S with
      | none => some []
      | some sp =>
        let v := sp.find_unknown_variable
        if v.has_p then
          match analyzeF fuel (sp.set_p_zero v.p_index),
              analyzeF fuel (sp.set_p_one v.p_index) with
          | some a, some b => some (SearchEvent.branchP v.p_index :: a ++ b)
          | _, _ => none
        else if v.has_q then
          match analyzeF fuel (sp.set_q_zero v.q_index),
              analyzeF fuel (sp.set_q_one v.q_index) with
          | some a, some b => some (SearchEvent.branchQ v.q_index :: a ++ b)
          | _, _ => none
        else
          match sp.zeros with
          | zt :: _ =>
            match analyzeF fuel (sp.set_p_zero zt.p_index),
                analyzeF fuel (sp.set_q_zero zt.q_index) with
            | some a, some b => some (SearchEvent.branchZ zt :: a ++ b)
            | _, _ => none
          | [] =>
            match sp.unknown with
            | [] => some [SearchEvent.leaf sp]
            | _ :: _ =>
              let best := findBestIndex sp.unknown
              match analyzeF fuel (move_unknown_to_zero sp best),
                  analyzeF fuel (move_unknown_to_one sp best) with
              | some a, some b => some (SearchEvent.branchU best :: a ++ b)
              | _, _ => none

/-! ### Basic lemmas about the list utilities -/

theorem contains_iff_mem {α : Type} [DecidableEq α]
    (l : List α) (x : α) : contains l x = true ↔ x ∈ l := by
  induction l with
  | nil => simp [contains]
  | cons e rest ih =>
    by_cases h : e = x
    · simp [contains, h]
    · have hx : ¬ x = e := fun hx => h hx.symm
      simp [contains, h, ih, hx]

theorem contains_eq_false_iff {α : Type} [DecidableEq α]
    (l : List α) (x : α) : contains l x = false ↔ x ∉ l := by
  rw [← Bool.not_eq_true, not_iff_not]
  exact contains_iff_mem l x

theorem mem_drop_all_iff {α : Type} [DecidableEq α]
    (l items : List α) (x : α) :
    x ∈ drop_all l items ↔ x ∈ l ∧ x ∉ items := by
  simp [drop_all, List.mem_filter, contains_eq_false_iff]

theorem drop_all_nil {α : Type} [DecidableEq α] (l : List α) :
    drop_all l [] = l := by
  simp [drop_all, contains]

theorem length_drop_all_le {α : Type} [DecidableEq α] (l items : List α) :
    (drop_all l items).length ≤ l.length :=
  List.length_filter_le _ l

theorem mem_drop_iff {α : Type} [DecidableEq α] (l : List α) (x y : α) :
    y ∈ drop l x ↔ y ∈ l ∧ y ≠ x := by
  simp [drop, List.mem_filter]

theorem length_drop_le {α : Type} [DecidableEq α] (l : List α) (x : α) :
    (drop l x).length ≤ l.length :=
  List.length_filter_le _ l

theorem polysTerms_nil : polysTerms [] = 0 := rfl

theorem polysTerms_cons (P : Polynomial) (l : List Polynomial) :
    polysTerms (P :: l) = P.length + polysTerms l := by
  simp [polysTerms]

theorem polysTerms_append (l1 l2 : List Polynomial) :
    polysTerms (l1 ++ l2) = polysTerms l1 + polysTerms l2 := by
  simp [polysTerms]

theorem polysTerms_filter_le (p : Polynomial → Bool) (l : List Polynomial) :
    polysTerms (l.filter p) ≤ polysTerms l := by
  induction l with
  | nil => simp
  | cons P rest ih =>
    by_cases h : p P
    · simp only [List.filter_cons, h, if_pos, polysTerms_cons]
      omega
    · simp only [List.filter_cons, h, Bool.false_eq_true, if_neg,
        not_false_iff, polysTerms_cons]
      omega

theorem polysTerms_map_filter_le (p : Term → Bool) (l : List Polynomial) :
    polysTerms (l.map (fun P => P.filter p)) ≤ polysTerms l := by
  induction l with
  | nil => simp
  | cons P rest ih =>
    simp only [List.map_cons, polysTerms_cons]
    have := List.length_filter_le p P
    omega

/-! ### Membership characterizations of the System operations -/

theorem mem_mapFilter {α β : Type} (f : α → β) (pred : β → Bool)
    (l : List α) (x : β) :
    x ∈ (l.map f).filter pred ↔ ∃ a ∈ l, f a = x ∧ pred x = true := by
  constructor
  · intro h
    obtain ⟨hmem, hp⟩ := List.mem_filter.mp h
    obtain ⟨a, ha, rfl⟩ := List.mem_map.mp hmem
    exact ⟨a, ha, rfl, hp⟩
  · rintro ⟨a, ha, rfl, hp⟩
    exact List.mem_filter.mpr ⟨List.mem_map_of_mem f ha, hp⟩

theorem mem_apply_ones_iff (S : System) (sub : ZeroSubstitution)
    (P : List Term) :
    P ∈ (S.apply sub).ones ↔
      ∃ Q ∈ S.ones, Q.filter (fun t => !(sub.is_zeroed t)) = P ∧
        Polynomial.is_one P = false := by
  show P ∈ (S.ones.map _).filter _ ↔ _
  rw [mem_mapFilter]
  simp

theorem mem_apply_unknown_iff (S : System) (sub : ZeroSubstitution)
    (P : List Term) :
    P ∈ (S.apply sub).unknown ↔
      ∃ Q ∈ S.unknown, Q.filter (fun t => !(sub.is_zeroed t)) = P ∧
        Polynomial.is_zero_or_one P = false := by
  show P ∈ (S.unknown.map _).filter _ ↔ _
  rw [mem_mapFilter]
  simp

theorem mem_apply_zeros_iff (S : System) (sub : ZeroSubstitution)
    (t : Term) :
    t ∈ (S.apply sub).zeros ↔
      (t ∈ S.zeros ∧ sub.is_zeroed t = false) ∨
        (t ∈ sub.zeroed_terms ∧
          contains sub.zeroed_ps t.p_index = false ∧
            contains sub.zeroed_qs t.q_index = false) := by
  show t ∈ _ ++ _ ↔ _
  rw [List.mem_append]
  simp [List.mem_filter]

theorem mem_pOneInter_ones_iff (S : System) (k : VarIndex)
    (P : List Term) :
    P ∈ (System.pOneInter S k).ones ↔
      ∃ Q ∈ S.ones, Q.map (System.elimP k) = P ∧ Polynomial.is_one P = false := by
  show P ∈ (S.ones.map _).filter _ ↔ _
  rw [mem_mapFilter]
  simp

theorem mem_pOneInter_unknown_iff (S : System) (k : VarIndex)
    (P : List Term) :
    P ∈ (System.pOneInter S k).unknown ↔
      ∃ Q ∈ S.unknown, Q.map (System.elimP k) = P ∧
        Polynomial.is_zero_or_one P = false := by
  show P ∈ (S.unknown.map _).filter _ ↔ _
  rw [mem_mapFilter]
  simp

theorem mem_qOneInter_ones_iff (S : System) (k : VarIndex)
    (P : List Term) :
    P ∈ (System.qOneInter S k).ones ↔
      ∃ Q ∈ S.ones, Q.map (System.elimQ k) = P ∧ Polynomial.is_one P = false := by
  show P ∈ (S.ones.map _).filter _ ↔ _
  rw [mem_mapFilter]
  simp

theorem mem_qOneInter_unknown_iff (S : System) (k : VarIndex)
    (P : List Term) :
    P ∈ (System.qOneInter S k).unknown ↔
      ∃ Q ∈ S.unknown, Q.map (System.elimQ k) = P ∧
        Polynomial.is_zero_or_one P = false := by
  show P ∈ (S.unknown.map _).filter _ ↔ _
  rw [mem_mapFilter]
  simp

/-! ### C1: behaviour of the search on the degree pair (1, 1) -/

/-- C1, counterexample: the initial System for (i=1, j=1) does *not* have
zero equations in its `unknown` partition — it has exactly one, consisting
of two constant monomials — and the simplifier's unsatisfiable-equation
check (which precedes the solved check) fires on it, so the run reports
the system inconsistent rather than Solved. -/
theorem c1_system_1_1_counterexample :
    ¬ ((mkSystem 1 1).unknown = []) ∧
      (mkSystem 1 1).unknown = [[⟨0, 0⟩, ⟨0, 0⟩]] ∧
        (mkSystem 1 1).has_unsatisfiable_equation = true := by
  decide

/-- C1, amended: the initial System for (i=1, j=1) has exactly one
`unknown` equation, consisting of two constant monomials, so the simplifier
immediately reports the system inconsistent (unsatisfiable), and the search
performs no branching and emits no Leaf output. -/
theorem c1_system_1_1_inconsistent :
    (mkSystem 1 1).unknown = [[⟨0, 0⟩, ⟨0, 0⟩]] ∧
      (mkSystem 1 1).has_unsatisfiable_equation = true ∧
        simplify (mkSystem 1 1) = none ∧
          analyzeF 1 (mkSystem 1 1) = some [] := by
  decide

/-! ### C4: the contradiction check precedes every rewrite and branch -/

theorem has_unsatisfiable_iff (S : System) :
    S.has_unsatisfiable_equation = true ↔
      (∃ P ∈ S.ones, P = []) ∨
        (∃ P, (P ∈ S.ones ∨ P ∈ S.unknown) ∧
          2 ≤ (P.filter Term.is_constant).length) := by
  simp only [System.has_unsatisfiable_equation, Bool.or_eq_true,
    List.any_eq_true, Bool.or_eq_true, decide_eq_true_eq,
    List.isEmpty_iff]
  constructor
  · rintro (⟨P, hP, h | h⟩ | ⟨P, hP, h⟩)
    · exact Or.inl ⟨P, hP, h⟩
    · exact Or.inr ⟨P, Or.inl hP, h⟩
    · exact Or.inr ⟨P, Or.inr hP, h⟩
  · rintro (⟨P, hP, h⟩ | ⟨P, hP | hP, h⟩)
    · exact Or.inl ⟨P, hP, Or.inl h⟩
    · exact Or.inl ⟨P, hP, Or.inr h⟩
    · exact Or.inr ⟨P, hP, h⟩

theorem is_empty_false_of_ones_or_unknown (S : System)
    (h : S.ones ≠ [] ∨ S.unknown ≠ []) : S.is_empty = false := by
  rcases h with h | h <;> simp [System.is_empty, List.isEmpty_iff, h]

/-- C4: whenever a System contains an empty `ones` equation, or any
equation of `ones` or `unknown` with two or more constant monomials,
`simplify` reports unsatisfiable at once (before any rewrite rule fires)
and the search driver returns without attempting any branch or emitting
any Leaf. -/
theorem c4_contradiction_check_first (S : System) (fuel : Nat)
    (h : (∃ P ∈ S.ones, P = []) ∨
      (∃ P, (P ∈ S.ones ∨ P ∈ S.unknown) ∧
        2 ≤ (P.filter Term.is_constant).length)) :
    simplifyF (fuel + 1) S = some none ∧
      analyzeF (fuel + 1) S = some [] := by
  have hunsat : S.has_unsatisfiable_equation = true :=
    (has_unsatisfiable_iff S).mpr h
  have hsimpF : simplifyF (fuel + 1) S = some none := by
    simp [simplifyF, hunsat]
  have hnonempty : S.ones ≠ [] ∨ S.unknown ≠ [] := by
    rcases h with ⟨P, hP, _⟩ | ⟨P, hP | hP, _⟩
    · exact Or.inl (List.ne_nil_of_mem hP)
    · exact Or.inl (List.ne_nil_of_mem hP)
    · exact Or.inr (List.ne_nil_of_mem hP)
  have hne : S.is_empty = false := is_empty_false_of_ones_or_unknown S hnonempty
  have hsimp : simplify S = none := by
    have : simplifyF (measure S + 1) S = some none := by
      simp [simplifyF, hunsat]
    simp [simplify, this]
  refine ⟨hsimpF, ?_⟩
  simp [analyzeF, hne, hsimp]

/-- C4 witness: a hand-constructed System whose single `ones` equation
contains two constant monomials is rejected before any branching. -/
theorem c4_contradiction_check_first_witness :
    simplifyF 1 ⟨[], [], [], [[⟨0, 0⟩, ⟨0, 0⟩]], []⟩ = some none ∧
      analyzeF 1 ⟨[], [], [], [[⟨0, 0⟩, ⟨0, 0⟩]], []⟩ = some [] :=
  c4_contradiction_check_first ⟨[], [], [], [[⟨0, 0⟩, ⟨0, 0⟩]], []⟩ 0
    (Or.inr ⟨[⟨0, 0⟩, ⟨0, 0⟩], Or.inl (by decide), by decide⟩)

/-! ### C2: the batched zero substitution `System::apply` -/

/-- C2, counterexample: a quadratic Monomial matching a zero request is
*not* always removed from the `zeros` set of the result of
`System::apply`: a requested quadratic term is recorded into `zeros`
(here `p_1 q_1`, requested by the batch and present in the receiver's
`zeros`, survives into the result). -/
theorem c2_apply_counterexample :
    (System.apply ⟨[], [], [⟨1, 1⟩], [], []⟩ ⟨[], [], [⟨1, 1⟩]⟩).zeros =
        [⟨1, 1⟩] ∧
      ZeroSubstitution.is_zeroed ⟨[], [], [⟨1, 1⟩]⟩ ⟨1, 1⟩ = true ∧
        ¬ (∀ t ∈ (System.apply ⟨[], [], [⟨1, 1⟩], [], []⟩
              ⟨[], [], [⟨1, 1⟩]⟩).zeros,
            ZeroSubstitution.is_zeroed ⟨[], [], [⟨1, 1⟩]⟩ t = false) := by
  decide

/-- C2, amended: `System::apply` removes every Monomial matching a request
from every equation; the result's `zeros` set consists exactly of the
receiver's entries that match no request together with the requested
quadratic terms whose p- and q-variables are not themselves zeroed (so a
requested quadratic term may remain in or be added to `zeros` as a
recorded fact); zeroed p- and q-indices leave the active sets; an
`unknown` equation that becomes empty or a single constant monomial is
dropped; and a `ones` equation whose residual is not a single constant —
in particular one that becomes a single non-constant monomial or becomes
empty — is retained in `ones`. -/
theorem c2_apply_characterization (S : System) (sub : ZeroSubstitution) :
    (∀ P, (P ∈ (S.apply sub).ones ∨ P ∈ (S.apply sub).unknown) →
      ∀ t ∈ P, sub.is_zeroed t = false) ∧
    (∀ t : Term, t ∈ (S.apply sub).zeros ↔
      (t ∈ S.zeros ∧ sub.is_zeroed t = false) ∨
        (t ∈ sub.zeroed_terms ∧
          contains sub.zeroed_ps t.p_index = false ∧
            contains sub.zeroed_qs t.q_index = false)) ∧
    (∀ k ∈ sub.zeroed_ps, ¬ k ∈ (S.apply sub).active_ps) ∧
    (∀ k ∈ sub.zeroed_qs, ¬ k ∈ (S.apply sub).active_qs) ∧
    (∀ P ∈ (S.apply sub).unknown, Polynomial.is_zero_or_one P = false) ∧
    (∀ P ∈ S.ones,
      Polynomial.is_one (P.filter (fun t => !(sub.is_zeroed t))) = false →
        P.filter (fun t => !(sub.is_zeroed t)) ∈ (S.apply sub).ones) := by
  refine ⟨?_, fun t => mem_apply_zeros_iff S sub t, ?_, ?_, ?_, ?_⟩ <;>
    simp only [System.apply]
  · intro P hP t ht
    have hfilter :
        ∃ Q : List Term, P = Q.filter (fun t => !(sub.is_zeroed t)) := by
      rcases hP with hP | hP
      · obtain ⟨Q, -, rfl⟩ := List.mem_map.mp (List.mem_of_mem_filter hP)
        exact ⟨Q, rfl⟩
      · obtain ⟨Q, -, rfl⟩ := List.mem_map.mp (List.mem_of_mem_filter hP)
        exact ⟨Q, rfl⟩
    obtain ⟨Q, rfl⟩ := hfilter
    have := List.of_mem_filter ht
    simpa using this
  · intro k hk hmem
    exact ((mem_drop_all_iff _ _ _).mp hmem).2 hk
  · intro k hk hmem
    exact ((mem_drop_all_iff _ _ _).mp hmem).2 hk
  · intro P hP
    have := List.of_mem_filter hP
    simpa using this
  · intro P hP hone
    refine List.mem_filter.mpr ⟨List.mem_map_of_mem _ hP, ?_⟩
    simpa using hone

/-- C2 witness: on a concrete System and batch, a surviving equation term
is not matched by any request. -/
theorem c2_apply_characterization_witness :
    ZeroSubstitution.is_zeroed ⟨[(1 : Int)], [], []⟩ ⟨2, 0⟩ = false :=
  (c2_apply_characterization ⟨[], [], [], [[⟨1, 0⟩, ⟨2, 0⟩]], []⟩
      ⟨[(1 : Int)], [], []⟩).1
    [⟨2, 0⟩] (Or.inl (by decide)) ⟨2, 0⟩ (by decide)

/-! ### C3: pinning a variable to one -/

theorem elimP_p_ne (k : VarIndex) (hk : k ≠ 0) (t : Term) :
    (System.elimP k t).p_index ≠ k := by
  simp only [System.elimP]
  by_cases h : t.p_index = k
  · simpa [h] using fun hh => hk hh.symm
  · simpa [h] using h

theorem elimQ_q_ne (k : VarIndex) (hk : k ≠ 0) (t : Term) :
    (System.elimQ k t).q_index ≠ k := by
  simp only [System.elimQ]
  by_cases h : t.q_index = k
  · simpa [h] using fun hh => hk hh.symm
  · simpa [h] using h

theorem pOneSub_is_zeroed (S : System) (k : VarIndex) (t : Term) :
    (System.pOneSub S k).is_zeroed t =
      contains ((S.zeros.filter (fun z =>
        decide (z.p_index = k))).map Term.q_index) t.q_index := by
  simp [ZeroSubstitution.is_zeroed, System.pOneSub, contains]

theorem qOneSub_is_zeroed (S : System) (k : VarIndex) (t : Term) :
    (System.qOneSub S k).is_zeroed t =
      contains ((S.zeros.filter (fun z =>
        decide (z.q_index = k))).map Term.p_index) t.p_index := by
  simp [ZeroSubstitution.is_zeroed, System.qOneSub, contains]

theorem mem_pOneSub_qs (S : System) (k : VarIndex) (z : Term)
    (hz : z ∈ S.zeros) (hp : z.p_index = k) :
    z.q_index ∈ (System.pOneSub S k).zeroed_qs :=
  List.mem_map_of_mem Term.q_index
    (List.mem_filter.mpr ⟨hz, by simp [hp]⟩)

theorem mem_qOneSub_ps (S : System) (k : VarIndex) (z : Term)
    (hz : z ∈ S.zeros) (hq : z.q_index = k) :
    z.p_index ∈ (System.qOneSub S k).zeroed_ps :=
  List.mem_map_of_mem Term.p_index
    (List.mem_filter.mpr ⟨hz, by simp [hq]⟩)

/-- Terms of equations of `S.set_p_one k` are filtered co-factor images. -/
theorem set_p_one_eq_term (S : System) (k : VarIndex) (P : List Term)
    (hP : P ∈ (S.set_p_one k).ones ∨ P ∈ (S.set_p_one k).unknown)
    (t : Term) (ht : t ∈ P) :
    (∃ r, t = System.elimP k r) ∧
      (System.pOneSub S k).is_zeroed t = false := by
  have hshape : ∃ Q : List Term, (∃ R : List Term, Q = R.map (System.elimP k)) ∧
      Q.filter (fun u => !((System.pOneSub S k).is_zeroed u)) = P := by
    rcases hP with hP | hP
    · obtain ⟨Q, hQ, hfil, -⟩ := (mem_apply_ones_iff _ _ _).mp hP
      obtain ⟨R, -, hmap, -⟩ := (mem_pOneInter_ones_iff _ _ _).mp hQ
      exact ⟨Q, ⟨R, hmap.symm⟩, hfil⟩
    · obtain ⟨Q, hQ, hfil, -⟩ := (mem_apply_unknown_iff _ _ _).mp hP
      obtain ⟨R, -, hmap, -⟩ := (mem_pOneInter_unknown_iff _ _ _).mp hQ
      exact ⟨Q, ⟨R, hmap.symm⟩, hfil⟩
  obtain ⟨Q, ⟨R, rfl⟩, rfl⟩ := hshape
  have hQ : t ∈ R.map (System.elimP k) := List.mem_of_mem_filter ht
  obtain ⟨r, -, rfl⟩ := List.mem_map.mp hQ
  refine ⟨⟨r, rfl⟩, ?_⟩
  simpa using List.of_mem_filter ht

/-- Terms of equations of `S.set_q_one k` are filtered co-factor images. -/
theorem set_q_one_eq_term (S : System) (k : VarIndex) (P : List Term)
    (hP : P ∈ (S.set_q_one k).ones ∨ P ∈ (S.set_q_one k).unknown)
    (t : Term) (ht : t ∈ P) :
    (∃ r, t = System.elimQ k r) ∧
      (System.qOneSub S k).is_zeroed t = false := by
  have hshape : ∃ Q : List Term, (∃ R : List Term, Q = R.map (System.elimQ k)) ∧
      Q.filter (fun u => !((System.qOneSub S k).is_zeroed u)) = P := by
    rcases hP with hP | hP
    · obtain ⟨Q, hQ, hfil, -⟩ := (mem_apply_ones_iff _ _ _).mp hP
      obtain ⟨R, -, hmap, -⟩ := (mem_qOneInter_ones_iff _ _ _).mp hQ
      exact ⟨Q, ⟨R, hmap.symm⟩, hfil⟩
    · obtain ⟨Q, hQ, hfil, -⟩ := (mem_apply_unknown_iff _ _ _).mp hP
      obtain ⟨R, -, hmap, -⟩ := (mem_qOneInter_unknown_iff _ _ _).mp hQ
      exact ⟨Q, ⟨R, hmap.symm⟩, hfil⟩
  obtain ⟨Q, ⟨R, rfl⟩, rfl⟩ := hshape
  have hQ : t ∈ R.map (System.elimQ k) := List.mem_of_mem_filter ht
  obtain ⟨r, -, rfl⟩ := List.mem_map.mp hQ
  refine ⟨⟨r, rfl⟩, ?_⟩
  simpa using List.of_mem_filter ht

/-- C3: `set_p_one k` removes `k` from the active p-set, replaces every
Monomial containing `p_k` by its co-factor (so no equation of the result
mentions `p_k`, and the co-factor image of each `ones` equation survives
unless resolved), and for every quadratic term `p_k * q_m` in `zeros` it
additionally applies the zero substitution pinning `q_m` to zero: `q_m`
leaves the active q-set and no equation or zero entry of the result
mentions `q_m`. Symmetrically for `set_q_one`. -/
theorem c3_set_one_spec (S : System) (k : VarIndex) (hk : k ≠ 0) :
    ((S.set_p_one k).active_ps = drop S.active_ps k ∧
     (∀ P, (P ∈ (S.set_p_one k).ones ∨ P ∈ (S.set_p_one k).unknown) →
        ∀ t ∈ P, t.p_index ≠ k) ∧
     (∀ P ∈ S.ones,
        Polynomial.is_one (P.map (System.elimP k)) = false →
        Polynomial.is_one ((P.map (System.elimP k)).filter
          (fun t => !((System.pOneSub S k).is_zeroed t))) = false →
        (P.map (System.elimP k)).filter
            (fun t => !((System.pOneSub S k).is_zeroed t)) ∈
          (S.set_p_one k).ones) ∧
     (∀ z ∈ S.zeros, z.p_index = k → z.is_quadratic = true →
        (¬ z.q_index ∈ (S.set_p_one k).active_qs) ∧
        (∀ P, (P ∈ (S.set_p_one k).ones ∨ P ∈ (S.set_p_one k).unknown) →
           ∀ t ∈ P, t.q_index ≠ z.q_index) ∧
        (∀ t ∈ (S.set_p_one k).zeros, t.q_index ≠ z.q_index))) ∧
    ((S.set_q_one k).active_qs = drop S.active_qs k ∧
     (∀ P, (P ∈ (S.set_q_one k).ones ∨ P ∈ (S.set_q_one k).unknown) →
        ∀ t ∈ P, t.q_index ≠ k) ∧
     (∀ P ∈ S.ones,
        Polynomial.is_one (P.map (System.elimQ k)) = false →
        Polynomial.is_one ((P.map (System.elimQ k)).filter
          (fun t => !((System.qOneSub S k).is_zeroed t))) = false →
        (P.map (System.elimQ k)).filter
            (fun t => !((System.qOneSub S k).is_zeroed t)) ∈
          (S.set_q_one k).ones) ∧
     (∀ z ∈ S.zeros, z.q_index = k → z.is_quadratic = true →
        (¬ z.p_index ∈ (S.set_q_one k).active_ps) ∧
        (∀ P, (P ∈ (S.set_q_one k).ones ∨ P ∈ (S.set_q_one k).unknown) →
           ∀ t ∈ P, t.p_index ≠ z.p_index) ∧
        (∀ t ∈ (S.set_q_one k).zeros, t.p_index ≠ z.p_index))) := by
  constructor
  · refine ⟨?_, ?_, ?_, ?_⟩
    · show drop_all (drop S.active_ps k) [] = drop S.active_ps k
      exact drop_all_nil _
    · intro P hP t ht
      obtain ⟨⟨r, rfl⟩, -⟩ := set_p_one_eq_term S k P hP t ht
      exact elimP_p_ne k hk r
    · intro P hP h1 h2
      exact (mem_apply_ones_iff _ _ _).mpr
        ⟨P.map (System.elimP k),
          (mem_pOneInter_ones_iff _ _ _).mpr ⟨P, hP, rfl, h1⟩, rfl, h2⟩
    · intro z hz hzp _hquad
      have hm : z.q_index ∈ (System.pOneSub S k).zeroed_qs :=
        mem_pOneSub_qs S k z hz hzp
      refine ⟨?_, ?_, ?_⟩
      · intro hmem
        have : z.q_index ∈ drop_all S.active_qs
            (System.pOneSub S k).zeroed_qs := hmem
        exact ((mem_drop_all_iff _ _ _).mp this).2 hm
      · intro P hP t ht heq
        have hzeroed := (set_p_one_eq_term S k P hP t ht).2
        rw [pOneSub_is_zeroed] at hzeroed
        have : ¬ t.q_index ∈ (System.pOneSub S k).zeroed_qs :=
          (contains_eq_false_iff _ _).mp hzeroed
        exact this (heq ▸ hm)
      · intro t ht heq
        rcases (mem_apply_zeros_iff _ _ _).mp ht with ⟨-, hzeroed⟩ | ⟨habs, -⟩
        · rw [pOneSub_is_zeroed] at hzeroed
          exact (contains_eq_false_iff _ _).mp hzeroed (heq ▸ hm)
        · simpa [System.pOneSub] using habs
  · refine ⟨?_, ?_, ?_, ?_⟩
    · show drop_all (drop S.active_qs k) [] = drop S.active_qs k
      exact drop_all_nil _
    · intro P hP t ht
      obtain ⟨⟨r, rfl⟩, -⟩ := set_q_one_eq_term S k P hP t ht
      exact elimQ_q_ne k hk r
    · intro P hP h1 h2
      exact (mem_apply_ones_iff _ _ _).mpr
        ⟨P.map (System.elimQ k),
          (mem_qOneInter_ones_iff _ _ _).mpr ⟨P, hP, rfl, h1⟩, rfl, h2⟩
    · intro z hz hzq _hquad
      have hm : z.p_index ∈ (System.qOneSub S k).zeroed_ps :=
        mem_qOneSub_ps S k z hz hzq
      refine ⟨?_, ?_, ?_⟩
      · intro hmem
        have : z.p_index ∈ drop_all S.active_ps
            (System.qOneSub S k).zeroed_ps := hmem
        exact ((mem_drop_all_iff _ _ _).mp this).2 hm
      · intro P hP t ht heq
        have hzeroed := (set_q_one_eq_term S k P hP t ht).2
        rw [qOneSub_is_zeroed] at hzeroed
        have : ¬ t.p_index ∈ (System.qOneSub S k).zeroed_ps :=
          (contains_eq_false_iff _ _).mp hzeroed
        exact this (heq ▸ hm)
      · intro t ht heq
        rcases (mem_apply_zeros_iff _ _ _).mp ht with ⟨-, hzeroed⟩ | ⟨habs, -⟩
        · rw [qOneSub_is_zeroed] at hzeroed
          exact (contains_eq_false_iff _ _).mp hzeroed (heq ▸ hm)
        · simpa [System.qOneSub] using habs

/-- C3 witness: on a concrete System, pinning `p_1` to one eliminates
`p_1` from the active set and propagates `q_2 = 0` from the pinned zero
term `p_1 q_2`. -/
theorem c3_set_one_spec_witness :
    ¬ (2 : Int) ∈
      (System.set_p_one ⟨[1], [1, 2], [⟨1, 2⟩], [[⟨1, 1⟩, ⟨0, 2⟩]], []⟩
        1).active_qs :=
  ((c3_set_one_spec ⟨[1], [1, 2], [⟨1, 2⟩], [[⟨1, 1⟩, ⟨0, 2⟩]], []⟩ 1
      (by decide)).1.2.2.2 ⟨1, 2⟩ (by decide) (by decide) (by decide)).1

/-! ### C9: the substitution operations are pure functions

The C++ methods are translated statement by statement: every `push_back`
loop becomes a fold over an accumulator, and the receiver (`this`) is
threaded through unchanged and returned alongside the result, so that
"the receiver is left unmodified" is a provable equation. -/

theorem foldl_push_filter {α : Type} (p : α → Bool) (l acc : List α) :
    l.foldl (fun a x => if p x then a ++ [x] else a) acc =
      acc ++ l.filter p := by
  induction l generalizing acc with
  | nil => simp
  | cons x rest ih =>
    by_cases h : p x <;> simp [h, ih]

theorem foldl_skip_filter {α : Type} (p : α → Bool) (l acc : List α) :
    l.foldl (fun a x => if p x then a else a ++ [x]) acc =
      acc ++ l.filter (fun x => !(p x)) := by
  induction l generalizing acc with
  | nil => simp
  | cons x rest ih =>
    by_cases h : p x <;> simp [h, ih]

theorem foldl_push_map {α β : Type} (f : α → β) (l : List α)
    (acc : List β) :
    l.foldl (fun a x => a ++ [f x]) acc = acc ++ l.map f := by
  induction l generalizing acc with
  | nil => simp
  | cons x rest ih => simp [ih]

theorem foldl_push_map_filter {α β : Type} (f : α → β) (pred : β → Bool)
    (l : List α) (acc : List β) :
    l.foldl (fun a x => if pred (f x) then a else a ++ [f x]) acc =
      acc ++ (l.map f).filter (fun y => !(pred y)) := by
  induction l generalizing acc with
  | nil => simp
  | cons x rest ih =>
    by_cases h : pred (f x) <;> simp [h, ih]

/-- The body of `System::apply` with each loop written as a fold; the
second component is the receiver after the call. -/
def applyBody (S : System) (sub : ZeroSubstitution) : System × System :=
  let result : System :=
    { active_ps := drop_all S.active_ps sub.zeroed_ps
      active_qs := drop_all S.active_qs sub.zeroed_qs
      zeros :=
        sub.zeroed_terms.foldl
          (fun a t =>
            if !(contains sub.zeroed_ps t.p_index) &&
                !(contains sub.zeroed_qs t.q_index) then a ++ [t] else a)
          (S.zeros.foldl
            (fun a t => if sub.is_zeroed t then a else a ++ [t]) [])
      ones :=
        S.ones.foldl
          (fun acc P =>
            let sub_poly :=
              P.foldl (fun a t => if sub.is_zeroed t then a else a ++ [t]) []
            if Polynomial.is_one sub_poly then acc else acc ++ [sub_poly])
          []
      unknown :=
        S.unknown.foldl
          (fun acc P =>
            let sub_poly :=
              P.foldl (fun a t => if sub.is_zeroed t then a else a ++ [t]) []
            if Polynomial.is_zero_or_one sub_poly then acc
            else acc ++ [sub_poly])
          [] }
  (result, S)

/-- The body of `System::set_p_zero` with each loop written as a fold. -/
def setPZeroBody (S : System) (p_index : VarIndex) : System × System :=
  let result : System :=
    { active_ps := drop S.active_ps p_index
      active_qs := S.active_qs
      zeros :=
        S.zeros.foldl
          (fun a t => if t.p_index = p_index then a else a ++ [t]) []
      ones :=
        S.ones.foldl
          (fun acc P =>
            let sub_poly :=
              P.foldl
                (fun a t => if t.p_index = p_index then a else a ++ [t]) []
            if Polynomial.is_one sub_poly then acc else acc ++ [sub_poly])
          []
      unknown :=
        S.unknown.foldl
          (fun acc P =>
            let sub_poly :=
              P.foldl
                (fun a t => if t.p_index = p_index then a else a ++ [t]) []
            if Polynomial.is_zero_or_one sub_poly then acc
            else acc ++ [sub_poly])
          [] }
  (result, S)

/-- The body of `System::set_q_zero` with each loop written as a fold. -/
def setQZeroBody (S : System) (q_index : VarIndex) : System × System :=
  let result : System :=
    { active_ps := S.active_ps
      active_qs := drop S.active_qs q_index
      zeros :=
        S.zeros.foldl
          (fun a t => if t.q_index = q_index then a else a ++ [t]) []
      ones :=
        S.ones.foldl
          (fun acc P =>
            let sub_poly :=
              P.foldl
                (fun a t => if t.q_index = q_index then a else a ++ [t]) []
            if Polynomial.is_one sub_poly then acc else acc ++ [sub_poly])
          []
      unknown :=
        S.unknown.foldl
          (fun acc P =>
            let sub_poly :=
              P.foldl
                (fun a t => if t.q_index = q_index then a else a ++ [t]) []
            if Polynomial.is_zero_or_one sub_poly then acc
            else acc ++ [sub_poly])
          [] }
  (result, S)

/-- The body of `System::set_p_one`: the `zeros` loop splits entries
between the result and the local `transformation`, the equation loops map
each term to its co-factor, and the final `result.apply(transformation)`
call is the body of `apply`. -/
def setPOneBody (S : System) (p_index : VarIndex) : System × System :=
  let split :=
    S.zeros.foldl
      (fun (acc : List Term × ZeroSubstitution) t =>
        if t.p_index = p_index then (acc.1, acc.2.set_q_zero t.q_index)
        else (acc.1 ++ [t], acc.2))
      ([], ZeroSubstitution.empty)
  let result : System :=
    { active_ps := drop S.active_ps p_index
      active_qs := S.active_qs
      zeros := split.1
      ones :=
        S.ones.foldl
          (fun acc P =>
            let sub_poly :=
              P.foldl (fun a t => a ++ [System.elimP p_index t]) []
            if Polynomial.is_one sub_poly then acc else acc ++ [sub_poly])
          []
      unknown :=
        S.unknown.foldl
          (fun acc P =>
            let sub_poly :=
              P.foldl (fun a t => a ++ [System.elimP p_index t]) []
            if Polynomial.is_zero_or_one sub_poly then acc
            else acc ++ [sub_poly])
          [] }
  ((applyBody result split.2).1, S)

/-- The body of `System::set_q_one`. -/
def setQOneBody (S : System) (q_index : VarIndex) : System × System :=
  let split :=
    S.zeros.foldl
      (fun (acc : List Term × ZeroSubstitution) t =>
        if t.q_index = q_index then (acc.1, acc.2.set_p_zero t.p_index)
        else (acc.1 ++ [t], acc.2))
      ([], ZeroSubstitution.empty)
  let result : System :=
    { active_ps := S.active_ps
      active_qs := drop S.active_qs q_index
      zeros := split.1
      ones :=
        S.ones.foldl
          (fun acc P =>
            let sub_poly :=
              P.foldl (fun a t => a ++ [System.elimQ q_index t]) []
            if Polynomial.is_one sub_poly then acc else acc ++ [sub_poly])
          []
      unknown :=
        S.unknown.foldl
          (fun acc P =>
            let sub_poly :=
              P.foldl (fun a t => a ++ [System.elimQ q_index t]) []
            if Polynomial.is_zero_or_one sub_poly then acc
            else acc ++ [sub_poly])
          [] }
  ((applyBody result split.2).1, S)

theorem systemExt {a b : System} (h1 : a.active_ps = b.active_ps)
    (h2 : a.active_qs = b.active_qs) (h3 : a.zeros = b.zeros)
    (h4 : a.ones = b.ones) (h5 : a.unknown = b.unknown) : a = b := by
  cases a
  cases b
  simp_all

theorem foldl_skip_filter_p {α : Type} (p : α → Prop) [DecidablePred p]
    (l acc : List α) :
    l.foldl (fun a x => if p x then a else a ++ [x]) acc =
      acc ++ l.filter (fun x => !(decide (p x))) := by
  induction l generalizing acc with
  | nil => simp
  | cons x rest ih =>
    by_cases h : p x <;> simp [h, ih]

theorem applyBody_fst (S : System) (sub : ZeroSubstitution) :
    (applyBody S sub).1 = S.apply sub := by
  refine systemExt ?_ ?_ ?_ ?_ ?_ <;> dsimp only [applyBody, System.apply]
  · rw [foldl_skip_filter, List.nil_append, foldl_push_filter]
  · have hinner : ∀ P : List Term,
        P.foldl (fun a t => if sub.is_zeroed t then a else a ++ [t]) [] =
          P.filter (fun t => !(sub.is_zeroed t)) := by
      intro P
      rw [foldl_skip_filter, List.nil_append]
    simp only [hinner]
    rw [foldl_push_map_filter, List.nil_append]
  · have hinner : ∀ P : List Term,
        P.foldl (fun a t => if sub.is_zeroed t then a else a ++ [t]) [] =
          P.filter (fun t => !(sub.is_zeroed t)) := by
      intro P
      rw [foldl_skip_filter, List.nil_append]
    simp only [hinner]
    rw [foldl_push_map_filter, List.nil_append]

theorem zerosSplitP (p_index : VarIndex) (l : List Term)
    (accL : List Term) (accS : ZeroSubstitution) :
    l.foldl
        (fun (acc : List Term × ZeroSubstitution) t =>
          if t.p_index = p_index then (acc.1, acc.2.set_q_zero t.q_index)
          else (acc.1 ++ [t], acc.2))
        (accL, accS) =
      (accL ++ l.filter (fun t => !(decide (t.p_index = p_index))),
        { accS with
          zeroed_qs := accS.zeroed_qs ++
            (l.filter (fun t => decide (t.p_index = p_index))).map
              Term.q_index }) := by
  induction l generalizing accL accS with
  | nil => simp
  | cons t rest ih =>
    simp only [List.foldl_cons]
    by_cases h : t.p_index = p_index
    · rw [if_pos h, ih]
      simp [ZeroSubstitution.set_q_zero, h]
    · rw [if_neg h, ih]
      simp [h]

theorem zerosSplitQ (q_index : VarIndex) (l : List Term)
    (accL : List Term) (accS : ZeroSubstitution) :
    l.foldl
        (fun (acc : List Term × ZeroSubstitution) t =>
          if t.q_index = q_index then (acc.1, acc.2.set_p_zero t.p_index)
          else (acc.1 ++ [t], acc.2))
        (accL, accS) =
      (accL ++ l.filter (fun t => !(decide (t.q_index = q_index))),
        { accS with
          zeroed_ps := accS.zeroed_ps ++
            (l.filter (fun t => decide (t.q_index = q_index))).map
              Term.p_index }) := by
  induction l generalizing accL accS with
  | nil => simp
  | cons t rest ih =>
    simp only [List.foldl_cons]
    by_cases h : t.q_index = q_index
    · rw [if_pos h, ih]
      simp [ZeroSubstitution.set_p_zero, h]
    · rw [if_neg h, ih]
      simp [h]

theorem setPOneBody_fst (S : System) (k : VarIndex) :
    (setPOneBody S k).1 = S.set_p_one k := by
  have hmap : ∀ P : List Term,
      P.foldl (fun a t => a ++ [System.elimP k t]) [] =
        P.map (System.elimP k) := by
    intro P
    rw [foldl_push_map, List.nil_append]
  dsimp only [setPOneBody]
  rw [applyBody_fst, zerosSplitP k S.zeros [] ZeroSubstitution.empty]
  show System.apply _ _ = System.apply _ _
  congr 1
  refine systemExt ?_ ?_ ?_ ?_ ?_ <;> dsimp only [System.pOneInter]
  · simp
  · simp only [hmap]
    rw [foldl_push_map_filter, List.nil_append]
  · simp only [hmap]
    rw [foldl_push_map_filter, List.nil_append]

theorem setQOneBody_fst (S : System) (k : VarIndex) :
    (setQOneBody S k).1 = S.set_q_one k := by
  have hmap : ∀ P : List Term,
      P.foldl (fun a t => a ++ [System.elimQ k t]) [] =
        P.map (System.elimQ k) := by
    intro P
    rw [foldl_push_map, List.nil_append]
  dsimp only [setQOneBody]
  rw [applyBody_fst, zerosSplitQ k S.zeros [] ZeroSubstitution.empty]
  show System.apply _ _ = System.apply _ _
  congr 1
  refine systemExt ?_ ?_ ?_ ?_ ?_ <;> dsimp only [System.qOneInter]
  · simp
  · simp only [hmap]
    rw [foldl_push_map_filter, List.nil_append]
  · simp only [hmap]
    rw [foldl_push_map_filter, List.nil_append]

theorem setPZeroBody_fst (S : System) (k : VarIndex) :
    (setPZeroBody S k).1 = S.set_p_zero k := by
  have hinner : ∀ P : List Term,
      P.foldl (fun a t => if t.p_index = k then a else a ++ [t]) [] =
        P.filter (fun t => !(decide (t.p_index = k))) := by
    intro P
    rw [foldl_skip_filter_p, List.nil_append]
  refine systemExt ?_ ?_ ?_ ?_ ?_ <;>
    dsimp only [setPZeroBody, System.set_p_zero]
  · rw [foldl_skip_filter_p, List.nil_append]
  · simp only [hinner]
    rw [foldl_push_map_filter, List.nil_append]
  · simp only [hinner]
    rw [foldl_push_map_filter, List.nil_append]

theorem setQZeroBody_fst (S : System) (k : VarIndex) :
    (setQZeroBody S k).1 = S.set_q_zero k := by
  have hinner : ∀ P : List Term,
      P.foldl (fun a t => if t.q_index = k then a else a ++ [t]) [] =
        P.filter (fun t => !(decide (t.q_index = k))) := by
    intro P
    rw [foldl_skip_filter_p, List.nil_append]
  refine systemExt ?_ ?_ ?_ ?_ ?_ <;>
    dsimp only [setQZeroBody, System.set_q_zero]
  · rw [foldl_skip_filter_p, List.nil_append]
  · simp only [hinner]
    rw [foldl_push_map_filter, List.nil_append]
  · simp only [hinner]
    rw [foldl_push_map_filter, List.nil_append]

/-- C9: the statement-by-statement loop translations of `System::apply`,
`set_p_zero`, `set_q_zero`, `set_p_one` and `set_q_one` leave the receiver
System unmodified (second component) and produce exactly the value of the
corresponding pure function of the receiver and the batch (first
component): the operations have no effect beyond producing the new
System. -/
theorem c9_substitution_operations_pure (S : System)
    (sub : ZeroSubstitution) (k : VarIndex) :
    ((applyBody S sub).2 = S ∧ (applyBody S sub).1 = S.apply sub) ∧
    ((setPZeroBody S k).2 = S ∧ (setPZeroBody S k).1 = S.set_p_zero k) ∧
    ((setQZeroBody S k).2 = S ∧ (setQZeroBody S k).1 = S.set_q_zero k) ∧
    ((setPOneBody S k).2 = S ∧ (setPOneBody S k).1 = S.set_p_one k) ∧
    ((setQOneBody S k).2 = S ∧ (setQOneBody S k).1 = S.set_q_one k) :=
  ⟨⟨rfl, applyBody_fst S sub⟩, ⟨rfl, setPZeroBody_fst S k⟩,
    ⟨rfl, setQZeroBody_fst S k⟩, ⟨rfl, setPOneBody_fst S k⟩,
    ⟨rfl, setQOneBody_fst S k⟩⟩

/-! ### C7: idempotence of simplification -/

/-- The conditions under which `simplify` returns its argument unchanged:
no contradiction, not solved, no singleton `ones` equation with a
non-constant term, and an empty constant-elimination batch. -/
def isFixedPoint (S : System) : Prop :=
  S.has_unsatisfiable_equation = false ∧ S.is_solved = false ∧
    findOnesSingleton S.ones = none ∧ (buildSub S).is_empty = true

theorem simplifyF_fixedPoint (fuel : Nat) :
    ∀ S S', simplifyF fuel S = some (some S') → isFixedPoint S' := by
  induction fuel with
  | zero =>
    intro S S' h
    simp [simplifyF] at h
  | succ n ih =>
    intro S S' h
    rw [simplifyF] at h
    by_cases h1 : S.has_unsatisfiable_equation = true
    · rw [if_pos h1] at h
      simp at h
    rw [if_neg h1] at h
    by_cases h2 : S.is_solved = true
    · rw [if_pos h2] at h
      simp at h
    rw [if_neg h2] at h
    cases hfind : findOnesSingleton S.ones with
    | some t =>
      rw [hfind] at h
      dsimp only at h
      by_cases h3 : (onesSingletonStep S t).is_empty = true
      · rw [if_pos h3] at h
        simp at h
      · rw [if_neg h3] at h
        exact ih _ _ h
    | none =>
      rw [hfind] at h
      dsimp only at h
      by_cases h4 : (buildSub S).is_empty = true
      · rw [if_pos h4] at h
        have hS : S = S' := by
          simpa using h
        subst hS
        exact ⟨Bool.eq_false_iff.mpr h1, Bool.eq_false_iff.mpr h2,
          hfind, h4⟩
      · rw [if_neg h4] at h
        by_cases h5 : (S.apply (buildSub S)).is_empty = true
        · rw [if_pos h5] at h
          simp at h
        · rw [if_neg h5] at h
          exact ih _ _ h

theorem simplifyF_of_fixedPoint (S : System) (fuel : Nat)
    (h : isFixedPoint S) : simplifyF (fuel + 1) S = some (some S) := by
  obtain ⟨h1, h2, h3, h4⟩ := h
  rw [simplifyF, if_neg (by simp [h1]), if_neg (by simp [h2]), h3]
  dsimp only
  rw [if_pos h4]

/-- C7: simplification is idempotent — if `simplify S` returns a
fixed-point System `S'`, then `simplify S'` returns `S'` unchanged. -/
theorem c7_simplify_idempotent (S S' : System)
    (h : simplify S = some S') : simplify S' = some S' := by
  have hF : simplifyF (measure S + 1) S = some (some S') := by
    rw [simplify] at h
    cases hc : simplifyF (measure S + 1) S with
    | none => rw [hc] at h; simp [Option.join] at h
    | some r =>
      cases r with
      | none => rw [hc] at h; simp [Option.join] at h
      | some s =>
        rw [hc] at h
        simp [Option.join] at h
        subst h
        rfl
  have hfix : isFixedPoint S' := simplifyF_fixedPoint _ _ _ hF
  rw [simplify, simplifyF_of_fixedPoint S' (measure S') hfix]
  simp [Option.join]

/-- C7 witness: a concrete fixed point of `simplify` is returned unchanged
when simplified again. -/
theorem c7_simplify_idempotent_witness :
    simplify ⟨[1], [1], [], [[⟨1, 1⟩, ⟨1, 0⟩]], []⟩ =
      some ⟨[1], [1], [], [[⟨1, 1⟩, ⟨1, 0⟩]], []⟩ :=
  c7_simplify_idempotent ⟨[1], [1], [], [[⟨1, 1⟩, ⟨1, 0⟩]], []⟩
    ⟨[1], [1], [], [[⟨1, 1⟩, ⟨1, 0⟩]], []⟩ (by decide)

/-! ### C10: every emitted Leaf has empty `zeros` and empty `unknown` -/

theorem branch_dest (n : Nat) (X Y : System) (ev : SearchEvent)
    (evs : List SearchEvent)
    (h : (match analyzeF n X, analyzeF n Y with
          | some a, some b => some (ev :: a ++ b)
          | _, _ => none) = some evs) :
    ∃ a b, analyzeF n X = some a ∧ analyzeF n Y = some b ∧
      evs = ev :: a ++ b := by
  cases hX : analyzeF n X with
  | none => rw [hX] at h; simp at h
  | some a =>
    cases hY : analyzeF n Y with
    | none => rw [hX, hY] at h; simp at h
    | some b =>
      rw [hX, hY] at h
      simp only [Option.some.injEq] at h
      exact ⟨a, b, rfl, rfl, h.symm⟩

theorem analyzeF_leaf_mem (fuel : Nat) :
    ∀ S evs, analyzeF fuel S = some evs →
      ∀ L, SearchEvent.leaf L ∈ evs →
        L.zeros = [] ∧ L.unknown = [] ∧
          L.find_unknown_variable = ⟨0, 0⟩ := by
  induction fuel with
  | zero =>
    intro S evs h
    simp [analyzeF] at h
  | succ n ih =>
    intro S evs h
    rw [analyzeF] at h
    by_cases hemp : S.is_empty = true
    · rw [if_pos hemp] at h
      simp only [Option.some.injEq] at h
      subst h
      intro L hL
      simp at hL
    rw [if_neg hemp] at h
    cases hsimp : simplify S with
    | none =>
      rw [hsimp] at h
      simp only [Option.some.injEq] at h
      subst h
      intro L hL
      simp at hL
    | some sp =>
      rw [hsimp] at h
      dsimp only at h
      by_cases hp : sp.find_unknown_variable.has_p = true
      · rw [if_pos hp] at h
        obtain ⟨a, b, ha, hb, rfl⟩ := branch_dest n _ _ _ _ h
        intro L hL
        rcases List.mem_cons.mp hL with hL | hL
        · cases hL
        rcases List.mem_append.mp hL with hL | hL
        · exact ih _ _ ha L hL
        · exact ih _ _ hb L hL
      rw [if_neg hp] at h
      by_cases hq : sp.find_unknown_variable.has_q = true
      · rw [if_pos hq] at h
        obtain ⟨a, b, ha, hb, rfl⟩ := branch_dest n _ _ _ _ h
        intro L hL
        rcases List.mem_cons.mp hL with hL | hL
        · cases hL
        rcases List.mem_append.mp hL with hL | hL
        · exact ih _ _ ha L hL
        · exact ih _ _ hb L hL
      rw [if_neg hq] at h
      cases hz : sp.zeros with
      | cons zt rest =>
        rw [hz] at h
        dsimp only at h
        obtain ⟨a, b, ha, hb, rfl⟩ := branch_dest n _ _ _ _ h
        intro L hL
        rcases List.mem_cons.mp hL with hL | hL
        · cases hL
        rcases List.mem_append.mp hL with hL | hL
        · exact ih _ _ ha L hL
        · exact ih _ _ hb L hL
      | nil =>
        rw [hz] at h
        dsimp only at h
        cases hu : sp.unknown with
        | cons u0 rest =>
          rw [hu] at h
          dsimp only at h
          obtain ⟨a, b, ha, hb, rfl⟩ := branch_dest n _ _ _ _ h
          intro L hL
          rcases List.mem_cons.mp hL with hL | hL
          · cases hL
          rcases List.mem_append.mp hL with hL | hL
          · exact ih _ _ ha L hL
          · exact ih _ _ hb L hL
        | nil =>
          rw [hu] at h
          dsimp only at h
          simp only [Option.some.injEq] at h
          subst h
          intro L hL
          rcases List.mem_cons.mp hL with hL | hL
          · cases hL
            exact ⟨hz, hu, by
              rw [System.find_unknown_variable, hu]
              rfl⟩
          · simp at hL

/-- C10: whenever the search driver emits a Leaf, the simplified System at
that point has an empty `zeros` set, an empty `unknown` partition, and no
singleton-linear `unknown` equation (`find_unknown_variable` returns the
null term), so the residual `ones` equations handed to the output
collaborator are the entire remaining system. -/
theorem c10_leaf_invariant (fuel : Nat) (S : System)
    (evs : List SearchEvent) (h : analyzeF fuel S = some evs)
    (L : System) (hL : SearchEvent.leaf L ∈ evs) :
    L.zeros = [] ∧ L.unknown = [] ∧
      L.find_unknown_variable = ⟨0, 0⟩ :=
  analyzeF_leaf_mem fuel S evs h L hL

/-- C10 witness: a concrete run that emits a leaf, whose invariant is
obtained from the theorem. -/
theorem c10_leaf_invariant_witness :
    (⟨[1], [1], [], [[⟨1, 1⟩, ⟨1, 0⟩]], []⟩ : System).zeros = [] ∧
      (⟨[1], [1], [], [[⟨1, 1⟩, ⟨1, 0⟩]], []⟩ : System).unknown = [] ∧
        (⟨[1], [1], [], [[⟨1, 1⟩, ⟨1, 0⟩]], []⟩ :
            System).find_unknown_variable = ⟨0, 0⟩ :=
  c10_leaf_invariant 1 ⟨[1], [1], [], [[⟨1, 1⟩, ⟨1, 0⟩]], []⟩
    [SearchEvent.leaf ⟨[1], [1], [], [[⟨1, 1⟩, ⟨1, 0⟩]], []⟩]
    (by decide) ⟨[1], [1], [], [[⟨1, 1⟩, ⟨1, 0⟩]], []⟩ (by decide)

/-! ### C6: a termination measure for `simplify` -/

theorem polysTerms_map_le (F : Polynomial → Polynomial)
    (l : List Polynomial) (hF : ∀ Q ∈ l, (F Q).length ≤ Q.length) :
    polysTerms (l.map F) ≤ polysTerms l := by
  induction l with
  | nil => simp
  | cons Q rest ih =>
    simp only [List.map_cons, polysTerms_cons]
    have h1 := hF Q (by simp)
    have h2 := ih (fun R hR => hF R (by simp [hR]))
    omega

theorem polysTerms_mapFilter_le (F : Polynomial → Polynomial)
    (dp : Polynomial → Bool) (l : List Polynomial)
    (hF : ∀ Q ∈ l, (F Q).length ≤ Q.length) :
    polysTerms ((l.map F).filter (fun Q => !(dp Q))) ≤ polysTerms l :=
  le_trans (polysTerms_filter_le _ _) (polysTerms_map_le F l hF)

/-- Dropping the image of one member that the filter rejects loses at
least that member's length. -/
theorem polysTerms_mapFilter_drop (F : Polynomial → Polynomial)
    (dp : Polynomial → Bool) (l : List Polynomial) (P : Polynomial)
    (hF : ∀ Q, (F Q).length = Q.length)
    (hP : P ∈ l) (hdrop : dp (F P) = true) :
    polysTerms ((l.map F).filter (fun Q => !(dp Q))) + P.length ≤
      polysTerms l := by
  induction l with
  | nil => simp at hP
  | cons Q rest ih =>
    rcases List.mem_cons.mp hP with rfl | hP
    · simp only [List.map_cons, List.filter_cons, hdrop, Bool.not_true,
        Bool.false_eq_true, if_neg, not_false_iff, polysTerms_cons]
      have : polysTerms ((rest.map F).filter (fun Q => !(dp Q))) ≤
          polysTerms rest :=
        polysTerms_mapFilter_le F dp rest (fun R _ => le_of_eq (hF R))
      omega
    · have hrec := ih hP
      simp only [List.map_cons, List.filter_cons, polysTerms_cons]
      by_cases h : dp (F Q) = true
      · simp only [h, Bool.not_true, Bool.false_eq_true, if_neg,
          not_false_iff]
        omega
      · simp only [Bool.not_eq_true] at h
        simp only [h, Bool.not_false, if_pos, polysTerms_cons]
        have := hF Q
        omega

theorem length_filter_lt {α : Type} (p : α → Bool) (l : List α) (x : α)
    (hx : x ∈ l) (hpx : p x = false) :
    (l.filter p).length < l.length := by
  induction l with
  | nil => simp at hx
  | cons y rest ih =>
    rcases List.mem_cons.mp hx with rfl | hx
    · simp only [List.filter_cons, hpx, Bool.false_eq_true, if_neg,
        not_false_iff, List.length_cons]
      have := List.length_filter_le p rest
      omega
    · simp only [List.filter_cons, List.length_cons]
      by_cases h : p y = true
      · simp only [h, if_pos, List.length_cons]
        have := ih hx
        omega
      · simp only [Bool.not_eq_true] at h
        simp only [h, Bool.false_eq_true, if_neg, not_false_iff]
        have := ih hx
        omega

theorem polysTerms_map_map (f : Term → Term) (l : List Polynomial) :
    polysTerms (l.map (fun P => P.map f)) = polysTerms l := by
  induction l with
  | nil => simp
  | cons P rest ih =>
    simp only [List.map_cons, polysTerms_cons, List.length_map]
    omega

theorem empty_sub_is_zeroed (t : Term) :
    ZeroSubstitution.is_zeroed ⟨[], [], []⟩ t = false := by
  simp [ZeroSubstitution.is_zeroed, contains]

/-- `apply` with no quadratic zero requests never increases the measure. -/
theorem measure_apply_le (S : System) (sub : ZeroSubstitution)
    (hterms : sub.zeroed_terms = []) :
    measure (S.apply sub) ≤ measure S := by
  have h1 : (S.apply sub).active_ps.length ≤
      S.active_ps.length := length_drop_all_le _ _
  have h2 : (S.apply sub).active_qs.length ≤
      S.active_qs.length := length_drop_all_le _ _
  have h3 : (S.apply sub).zeros.length ≤ S.zeros.length := by
    show (_ ++ _ : List Term).length ≤ _
    rw [List.length_append, hterms]
    simpa using List.length_filter_le _ S.zeros
  have h4 : polysTerms (S.apply sub).ones ≤ polysTerms S.ones :=
    polysTerms_mapFilter_le _ _ _
      (fun Q _ => List.length_filter_le _ Q)
  have h5 : polysTerms (S.apply sub).unknown ≤ polysTerms S.unknown :=
    polysTerms_mapFilter_le _ _ _
      (fun Q _ => List.length_filter_le _ Q)
  simp only [measure]
  omega

/-- General `apply` bound: the measure grows by at most the number of
requested quadratic terms. -/
theorem measure_apply_le_add (S : System) (sub : ZeroSubstitution) :
    measure (S.apply sub) ≤ measure S + sub.zeroed_terms.length := by
  have h1 : (S.apply sub).active_ps.length ≤
      S.active_ps.length := length_drop_all_le _ _
  have h2 : (S.apply sub).active_qs.length ≤
      S.active_qs.length := length_drop_all_le _ _
  have h3 : (S.apply sub).zeros.length ≤
      S.zeros.length + sub.zeroed_terms.length := by
    show (_ ++ _ : List Term).length ≤ _
    rw [List.length_append]
    have := List.length_filter_le (fun t => !(sub.is_zeroed t)) S.zeros
    have := List.length_filter_le (fun t =>
      !(contains sub.zeroed_ps t.p_index) &&
        !(contains sub.zeroed_qs t.q_index)) sub.zeroed_terms
    omega
  have h4 : polysTerms (S.apply sub).ones ≤ polysTerms S.ones :=
    polysTerms_mapFilter_le _ _ _
      (fun Q _ => List.length_filter_le _ Q)
  have h5 : polysTerms (S.apply sub).unknown ≤ polysTerms S.unknown :=
    polysTerms_mapFilter_le _ _ _
      (fun Q _ => List.length_filter_le _ Q)
  simp only [measure]
  omega

/-- The intermediate system of `set_p_one` never increases the measure. -/
theorem measure_pOneInter_le (S : System) (k : VarIndex) :
    measure (System.pOneInter S k) ≤ measure S := by
  have h1 : (System.pOneInter S k).active_ps.length ≤
      S.active_ps.length := length_drop_le _ _
  have h3 : (System.pOneInter S k).zeros.length ≤ S.zeros.length :=
    List.length_filter_le _ _
  have h4 : polysTerms (System.pOneInter S k).ones ≤ polysTerms S.ones :=
    le_trans (polysTerms_filter_le _ _)
      (le_of_eq (polysTerms_map_map _ _))
  have h5 : polysTerms (System.pOneInter S k).unknown ≤
      polysTerms S.unknown :=
    le_trans (polysTerms_filter_le _ _)
      (le_of_eq (polysTerms_map_map _ _))
  have h2 : (System.pOneInter S k).active_qs.length =
      S.active_qs.length := rfl
  simp only [measure]
  omega

theorem measure_qOneInter_le (S : System) (k : VarIndex) :
    measure (System.qOneInter S k) ≤ measure S := by
  have h2 : (System.qOneInter S k).active_qs.length ≤
      S.active_qs.length := length_drop_le _ _
  have h3 : (System.qOneInter S k).zeros.length ≤ S.zeros.length :=
    List.length_filter_le _ _
  have h4 : polysTerms (System.qOneInter S k).ones ≤ polysTerms S.ones :=
    le_trans (polysTerms_filter_le _ _)
      (le_of_eq (polysTerms_map_map _ _))
  have h5 : polysTerms (System.qOneInter S k).unknown ≤
      polysTerms S.unknown :=
    le_trans (polysTerms_filter_le _ _)
      (le_of_eq (polysTerms_map_map _ _))
  have h1 : (System.qOneInter S k).active_ps.length =
      S.active_ps.length := rfl
  simp only [measure]
  omega

theorem pOneSub_zeroed_terms (S : System) (k : VarIndex) :
    (System.pOneSub S k).zeroed_terms = [] := rfl

theorem qOneSub_zeroed_terms (S : System) (k : VarIndex) :
    (System.qOneSub S k).zeroed_terms = [] := rfl

/-- `set_p_one` never increases the measure. -/
theorem measure_set_p_one_le (S : System) (k : VarIndex) :
    measure (S.set_p_one k) ≤ measure S :=
  le_trans (measure_apply_le _ _ (pOneSub_zeroed_terms S k))
    (measure_pOneInter_le S k)

theorem measure_set_q_one_le (S : System) (k : VarIndex) :
    measure (S.set_q_one k) ≤ measure S :=
  le_trans (measure_apply_le _ _ (qOneSub_zeroed_terms S k))
    (measure_qOneInter_le S k)

/-- A singleton `ones` equation `p_k = 1` makes `set_p_one k` strictly
decrease the measure: its image `1` is dropped from `ones`. -/
theorem measure_pOneInter_lt_linear (S : System) (k : VarIndex)
    (h : [Term.mk k 0] ∈ S.ones) :
    measure (System.pOneInter S k) < measure S := by
  have hdrop : Polynomial.is_one ([Term.mk k 0].map (System.elimP k)) =
      true := by
    simp [System.elimP, Polynomial.is_one, Term.is_constant, Term.has_p,
      Term.has_q]
  have hones := polysTerms_mapFilter_drop (fun P => P.map (System.elimP k))
    Polynomial.is_one S.ones [Term.mk k 0]
    (fun Q => List.length_map Q _) h hdrop
  simp only [List.length_cons, List.length_nil] at hones
  have h1 : (System.pOneInter S k).active_ps.length ≤
      S.active_ps.length := length_drop_le _ _
  have h2 : (System.pOneInter S k).active_qs.length =
      S.active_qs.length := rfl
  have h3 : (System.pOneInter S k).zeros.length ≤ S.zeros.length :=
    List.length_filter_le _ _
  have h4 : polysTerms (System.pOneInter S k).ones + 1 ≤
      polysTerms S.ones := hones
  have h5 : polysTerms (System.pOneInter S k).unknown ≤
      polysTerms S.unknown :=
    le_trans (polysTerms_filter_le _ _)
      (le_of_eq (polysTerms_map_map _ _))
  simp only [measure]
  omega

theorem measure_qOneInter_lt_linear (S : System) (m : VarIndex)
    (h : [Term.mk 0 m] ∈ S.ones) :
    measure (System.qOneInter S m) < measure S := by
  have hdrop : Polynomial.is_one ([Term.mk 0 m].map (System.elimQ m)) =
      true := by
    simp [System.elimQ, Polynomial.is_one, Term.is_constant, Term.has_p,
      Term.has_q]
  have hones := polysTerms_mapFilter_drop (fun P => P.map (System.elimQ m))
    Polynomial.is_one S.ones [Term.mk 0 m]
    (fun Q => List.length_map Q _) h hdrop
  simp only [List.length_cons, List.length_nil] at hones
  have h1 : (System.qOneInter S m).active_ps.length =
      S.active_ps.length := rfl
  have h2 : (System.qOneInter S m).active_qs.length ≤
      S.active_qs.length := length_drop_le _ _
  have h3 : (System.qOneInter S m).zeros.length ≤ S.zeros.length :=
    List.length_filter_le _ _
  have h4 : polysTerms (System.qOneInter S m).ones + 1 ≤
      polysTerms S.ones := hones
  have h5 : polysTerms (System.qOneInter S m).unknown ≤
      polysTerms S.unknown :=
    le_trans (polysTerms_filter_le _ _)
      (le_of_eq (polysTerms_map_map _ _))
  simp only [measure]
  omega

theorem measure_set_p_one_lt_linear (S : System) (k : VarIndex)
    (h : [Term.mk k 0] ∈ S.ones) :
    measure (S.set_p_one k) < measure S :=
  lt_of_le_of_lt (measure_apply_le _ _ (pOneSub_zeroed_terms S k))
    (measure_pOneInter_lt_linear S k h)

theorem measure_set_q_one_lt_linear (S : System) (m : VarIndex)
    (h : [Term.mk 0 m] ∈ S.ones) :
    measure (S.set_q_one m) < measure S :=
  lt_of_le_of_lt (measure_apply_le _ _ (qOneSub_zeroed_terms S m))
    (measure_qOneInter_lt_linear S m h)

/-- A singleton `ones` equation `p_k q_m = 1` makes the combined
`set_p_one` / `set_q_one` step strictly decrease the measure. -/
theorem measure_quad_step_lt (S : System) (k m : VarIndex)
    (h : [Term.mk k m] ∈ S.ones) (hm : m ≠ 0) :
    measure ((S.set_p_one k).set_q_one m) < measure S := by
  by_cases hz : ∃ z ∈ S.zeros, z.p_index = k
  · obtain ⟨z, hzmem, hzp⟩ := hz
    have hzlt : (System.pOneInter S k).zeros.length < S.zeros.length :=
      length_filter_lt _ S.zeros z hzmem (by simp [hzp])
    have hinter : measure (System.pOneInter S k) < measure S := by
      have h1 : (System.pOneInter S k).active_ps.length ≤
          S.active_ps.length := length_drop_le _ _
      have h2 : (System.pOneInter S k).active_qs.length =
          S.active_qs.length := rfl
      have h4 : polysTerms (System.pOneInter S k).ones ≤
          polysTerms S.ones :=
        le_trans (polysTerms_filter_le _ _)
          (le_of_eq (polysTerms_map_map _ _))
      have h5 : polysTerms (System.pOneInter S k).unknown ≤
          polysTerms S.unknown :=
        le_trans (polysTerms_filter_le _ _)
          (le_of_eq (polysTerms_map_map _ _))
      simp only [measure]
      omega
    exact lt_of_le_of_lt (measure_set_q_one_le _ m)
      (lt_of_le_of_lt
        (measure_apply_le _ _ (pOneSub_zeroed_terms S k)) hinter)
  · push_neg at hz
    have hsub : System.pOneSub S k = ⟨[], [], []⟩ := by
      have hfil : S.zeros.filter (fun t => decide (t.p_index = k)) = [] :=
        List.filter_eq_nil_iff.mpr (fun z hzmem => by
          simpa using hz z hzmem)
      simp [System.pOneSub, hfil]
    have hmem : [Term.mk 0 m] ∈ (S.set_p_one k).ones := by
      rw [System.set_p_one, hsub]
      refine (mem_apply_ones_iff _ _ _).mpr
        ⟨[Term.mk 0 m], ?_, ?_, ?_⟩
      · refine (mem_pOneInter_ones_iff _ _ _).mpr
          ⟨[Term.mk k m], h, ?_, ?_⟩
        · simp [System.elimP]
        · simp [Polynomial.is_one, Term.is_constant, Term.has_p,
            Term.has_q, hm]
      · simp [empty_sub_is_zeroed]
      · simp [Polynomial.is_one, Term.is_constant, Term.has_p,
          Term.has_q, hm]
    exact lt_of_lt_of_le (measure_set_q_one_lt_linear _ m hmem)
      (measure_set_p_one_le S k)

/-- The three request lists accumulated by `ZeroSubstitution::set_zero`
over one polynomial: quadratic terms, p-indices of linear p-terms, and
q-indices of linear q-terms. -/
theorem set_zero_poly_spec (P : Polynomial) :
    ∀ sub : ZeroSubstitution,
      (sub.set_zero_poly P).zeroed_ps = sub.zeroed_ps ++
          (P.filter (fun t => !t.is_quadratic && t.has_p)).map
            Term.p_index ∧
        (sub.set_zero_poly P).zeroed_qs = sub.zeroed_qs ++
            (P.filter (fun t =>
              !t.is_quadratic && !t.has_p && t.has_q)).map Term.q_index ∧
          (sub.set_zero_poly P).zeroed_terms = sub.zeroed_terms ++
            P.filter Term.is_quadratic := by
  induction P with
  | nil => intro sub; simp [ZeroSubstitution.set_zero_poly]
  | cons t rest ih =>
    intro sub
    have ihs := ih (sub.set_zero t)
    simp only [ZeroSubstitution.set_zero_poly] at ihs ⊢
    simp only [List.foldl_cons]
    obtain ⟨ih1, ih2, ih3⟩ := ihs
    rw [ih1, ih2, ih3]
    by_cases h1 : t.is_quadratic = true
    · refine ⟨?_, ?_, ?_⟩ <;>
        simp [ZeroSubstitution.set_zero, h1, List.filter_cons]
    · by_cases h2 : t.has_p = true
      · refine ⟨?_, ?_, ?_⟩ <;>
          simp [ZeroSubstitution.set_zero, ZeroSubstitution.set_p_zero,
            h1, h2, List.filter_cons]
      · by_cases h3 : t.has_q = true
        · refine ⟨?_, ?_, ?_⟩ <;>
            simp [ZeroSubstitution.set_zero, ZeroSubstitution.set_q_zero,
              h1, h2, h3, List.filter_cons]
        · refine ⟨?_, ?_, ?_⟩ <;>
            simp [ZeroSubstitution.set_zero, h1, h2, h3, List.filter_cons]

/-- The constant-elimination fold of `simplify` over one equation list. -/
theorem buildSub_fold_spec (l : List Polynomial) :
    ∀ sub0 : ZeroSubstitution,
      (l.foldl (fun sub P =>
          if P.any Term.is_constant then sub.set_zero_poly P else sub)
        sub0).zeroed_ps = sub0.zeroed_ps ++
          ((l.filter (fun P => P.any Term.is_constant)).map (fun P =>
            (P.filter (fun t => !t.is_quadratic && t.has_p)).map
              Term.p_index)).flatten ∧
      (l.foldl (fun sub P =>
          if P.any Term.is_constant then sub.set_zero_poly P else sub)
        sub0).zeroed_qs = sub0.zeroed_qs ++
          ((l.filter (fun P => P.any Term.is_constant)).map (fun P =>
            (P.filter (fun t =>
              !t.is_quadratic && !t.has_p && t.has_q)).map
                Term.q_index)).flatten ∧
      (l.foldl (fun sub P =>
          if P.any Term.is_constant then sub.set_zero_poly P else sub)
        sub0).zeroed_terms = sub0.zeroed_terms ++
          ((l.filter (fun P => P.any Term.is_constant)).map (fun P =>
            P.filter Term.is_quadratic)).flatten := by
  induction l with
  | nil => intro sub0; simp
  | cons P rest ih =>
    intro sub0
    simp only [List.foldl_cons]
    by_cases hP : P.any Term.is_constant = true
    · obtain ⟨ih1, ih2, ih3⟩ := ih (sub0.set_zero_poly P)
      rw [if_pos hP, ih1, ih2, ih3]
      obtain ⟨s1, s2, s3⟩ := set_zero_poly_spec P sub0
      rw [s1, s2, s3]
      refine ⟨?_, ?_, ?_⟩ <;> simp [List.filter_cons, hP]
    · obtain ⟨ih1, ih2, ih3⟩ := ih sub0
      rw [if_neg hP, ih1, ih2, ih3]
      refine ⟨?_, ?_, ?_⟩ <;> simp [List.filter_cons, hP]

theorem buildSub_components (S : System) :
    (buildSub S).zeroed_ps =
      ((S.ones.filter (fun P => P.any Term.is_constant)).map (fun P =>
        (P.filter (fun t => !t.is_quadratic && t.has_p)).map
          Term.p_index)).flatten ++
      ((S.unknown.filter (fun P => P.any Term.is_constant)).map (fun P =>
        (P.filter (fun t => !t.is_quadratic && t.has_p)).map
          Term.p_index)).flatten ∧
    (buildSub S).zeroed_qs =
      ((S.ones.filter (fun P => P.any Term.is_constant)).map (fun P =>
        (P.filter (fun t =>
          !t.is_quadratic && !t.has_p && t.has_q)).map
            Term.q_index)).flatten ++
      ((S.unknown.filter (fun P => P.any Term.is_constant)).map (fun P =>
        (P.filter (fun t =>
          !t.is_quadratic && !t.has_p && t.has_q)).map
            Term.q_index)).flatten ∧
    (buildSub S).zeroed_terms =
      ((S.ones.filter (fun P => P.any Term.is_constant)).map (fun P =>
        P.filter Term.is_quadratic)).flatten ++
      ((S.unknown.filter (fun P => P.any Term.is_constant)).map (fun P =>
        P.filter Term.is_quadratic)).flatten := by
  obtain ⟨o1, o2, o3⟩ :=
    buildSub_fold_spec S.ones ZeroSubstitution.empty
  obtain ⟨u1, u2, u3⟩ := buildSub_fold_spec S.unknown
    (S.ones.foldl (fun sub P =>
      if P.any Term.is_constant then sub.set_zero_poly P else sub)
      ZeroSubstitution.empty)
  refine ⟨?_, ?_, ?_⟩
  · show (buildSub S).zeroed_ps = _
    rw [buildSub]
    rw [u1, o1]
    simp [ZeroSubstitution.empty]
  · show (buildSub S).zeroed_qs = _
    rw [buildSub]
    rw [u2, o2]
    simp [ZeroSubstitution.empty]
  · show (buildSub S).zeroed_terms = _
    rw [buildSub]
    rw [u3, o3]
    simp [ZeroSubstitution.empty]

theorem mem_flatten_trig {β : Type} (g : Polynomial → List β)
    (l : List Polynomial) (x : β) :
    x ∈ ((l.filter (fun P => P.any Term.is_constant)).map g).flatten ↔
      ∃ P ∈ l, P.any Term.is_constant = true ∧ x ∈ g P := by
  simp only [List.mem_flatten, List.mem_map, List.mem_filter]
  constructor
  · rintro ⟨L, ⟨P, ⟨hPl, hPt⟩, rfl⟩, hx⟩
    exact ⟨P, hPl, hPt, hx⟩
  · rintro ⟨P, hPl, hPt, hx⟩
    exact ⟨g P, ⟨P, ⟨hPl, hPt⟩, rfl⟩, hx⟩

/-- Every non-constant term of a constant-containing equation is matched
by the batch that `simplify` builds. -/
theorem buildSub_zeroes_nonconst (S : System) (P : Polynomial)
    (hP : P ∈ S.ones ∨ P ∈ S.unknown)
    (htrig : P.any Term.is_constant = true) (t : Term) (ht : t ∈ P)
    (hnc : t.is_constant = false) :
    (buildSub S).is_zeroed t = true := by
  obtain ⟨c1, c2, c3⟩ := buildSub_components S
  rw [ZeroSubstitution.is_zeroed]
  by_cases hquad : t.is_quadratic = true
  · have hmem : t ∈ (buildSub S).zeroed_terms := by
      rw [c3]
      rcases hP with hP | hP
      · exact List.mem_append.mpr (Or.inl ((mem_flatten_trig _ _ _).mpr
          ⟨P, hP, htrig, List.mem_filter.mpr ⟨ht, hquad⟩⟩))
      · exact List.mem_append.mpr (Or.inr ((mem_flatten_trig _ _ _).mpr
          ⟨P, hP, htrig, List.mem_filter.mpr ⟨ht, hquad⟩⟩))
    simp [(contains_iff_mem _ _).mpr hmem]
  · by_cases hp : t.has_p = true
    · have hmem : t.p_index ∈ (buildSub S).zeroed_ps := by
        rw [c1]
        have hcond : (!t.is_quadratic && t.has_p) = true := by
          simp [hquad, hp]
        rcases hP with hP | hP
        · exact List.mem_append.mpr (Or.inl ((mem_flatten_trig _ _ _).mpr
            ⟨P, hP, htrig,
              List.mem_map_of_mem _ (List.mem_filter.mpr ⟨ht, hcond⟩)⟩))
        · exact List.mem_append.mpr (Or.inr ((mem_flatten_trig _ _ _).mpr
            ⟨P, hP, htrig,
              List.mem_map_of_mem _ (List.mem_filter.mpr ⟨ht, hcond⟩)⟩))
      simp [(contains_iff_mem _ _).mpr hmem]
    · have hq : t.has_q = true := by
        rw [Term.is_constant] at hnc
        simp only [Bool.not_eq_false', Bool.or_eq_true] at hnc
        rcases hnc with hnc | hnc
        · exact absurd hnc hp
        · exact hnc
      have hmem : t.q_index ∈ (buildSub S).zeroed_qs := by
        rw [c2]
        have hcond : (!t.is_quadratic && !t.has_p && t.has_q) = true := by
          simp [hquad, hp, hq]
        rcases hP with hP | hP
        · exact List.mem_append.mpr (Or.inl ((mem_flatten_trig _ _ _).mpr
            ⟨P, hP, htrig,
              List.mem_map_of_mem _ (List.mem_filter.mpr ⟨ht, hcond⟩)⟩))
        · exact List.mem_append.mpr (Or.inr ((mem_flatten_trig _ _ _).mpr
            ⟨P, hP, htrig,
              List.mem_map_of_mem _ (List.mem_filter.mpr ⟨ht, hcond⟩)⟩))
      simp [(contains_iff_mem _ _).mpr hmem]

/-- Constant terms are never matched by the batch that `simplify`
builds. -/
theorem buildSub_const_not_zeroed (S : System) (t : Term)
    (hc : t.is_constant = true) :
    (buildSub S).is_zeroed t = false := by
  obtain ⟨c1, c2, c3⟩ := buildSub_components S
  have hp : t.p_index = 0 := by
    rw [Term.is_constant] at hc
    simp only [Bool.not_eq_true', Bool.or_eq_false_iff] at hc
    simpa [Term.has_p] using hc.1
  have hq : t.q_index = 0 := by
    rw [Term.is_constant] at hc
    simp only [Bool.not_eq_true', Bool.or_eq_false_iff] at hc
    simpa [Term.has_q] using hc.2
  have hps : ¬ t.p_index ∈ (buildSub S).zeroed_ps := by
    rw [c1, hp]
    intro hmem
    rcases List.mem_append.mp hmem with hmem | hmem <;>
    · obtain ⟨P, -, -, hx⟩ := (mem_flatten_trig _ _ _).mp hmem
      obtain ⟨u, hu, hux⟩ := List.mem_map.mp hx
      have := (List.mem_filter.mp hu).2
      simp only [Bool.and_eq_true] at this
      have hup : u.has_p = true := this.2
      rw [Term.has_p] at hup
      simp only [decide_eq_true_eq] at hup
      exact hup hux
  have hqs : ¬ t.q_index ∈ (buildSub S).zeroed_qs := by
    rw [c2, hq]
    intro hmem
    rcases List.mem_append.mp hmem with hmem | hmem <;>
    · obtain ⟨P, -, -, hx⟩ := (mem_flatten_trig _ _ _).mp hmem
      obtain ⟨u, hu, hux⟩ := List.mem_map.mp hx
      have := (List.mem_filter.mp hu).2
      simp only [Bool.and_eq_true] at this
      have huq : u.has_q = true := this.2
      rw [Term.has_q] at huq
      simp only [decide_eq_true_eq] at huq
      exact huq hux
  have hts : ¬ t ∈ (buildSub S).zeroed_terms := by
    rw [c3]
    intro hmem
    rcases List.mem_append.mp hmem with hmem | hmem <;>
    · obtain ⟨P, -, -, hx⟩ := (mem_flatten_trig _ _ _).mp hmem
      have := (List.mem_filter.mp hx).2
      rw [Term.is_quadratic] at this
      simp only [Bool.and_eq_true] at this
      have := this.1
      rw [Term.has_p, hp] at this
      simp at this
  rw [ZeroSubstitution.is_zeroed]
  simp [(contains_eq_false_iff _ _).mpr hps,
    (contains_eq_false_iff _ _).mpr hqs,
    (contains_eq_false_iff _ _).mpr hts]

/-- In a consistent System, a constant-containing equation has exactly one
constant term. -/
theorem const_count_eq_one (S : System) (P : Polynomial)
    (hU : S.has_unsatisfiable_equation = false)
    (hP : P ∈ S.ones ∨ P ∈ S.unknown)
    (htrig : P.any Term.is_constant = true) :
    (P.filter Term.is_constant).length = 1 := by
  have hpos : 1 ≤ (P.filter Term.is_constant).length := by
    obtain ⟨t, htP, htc⟩ := List.any_eq_true.mp htrig
    have : t ∈ P.filter Term.is_constant :=
      List.mem_filter.mpr ⟨htP, htc⟩
    have := List.ne_nil_of_mem this
    have := List.length_pos.mpr this
    omega
  have hle : (P.filter Term.is_constant).length ≤ 1 := by
    rw [System.has_unsatisfiable_equation] at hU
    simp only [Bool.or_eq_false_iff, List.any_eq_false] at hU
    rcases hP with hP | hP
    · have hthis := hU.1 P hP
      simp only [Bool.or_eq_true, decide_eq_true_eq, not_or] at hthis
      obtain ⟨-, hlt⟩ := hthis
      omega
    · have hthis := hU.2 P hP
      simp only [decide_eq_true_eq] at hthis
      omega
  omega

theorem length_filter_disjoint {α : Type} (p q : α → Bool) (l : List α)
    (h : ∀ x ∈ l, ¬(p x = true ∧ q x = true)) :
    (l.filter p).length + (l.filter q).length ≤ l.length := by
  induction l with
  | nil => simp
  | cons x rest ih =>
    have hrec := ih (fun y hy => h y (List.mem_cons_of_mem x hy))
    have hx := h x (List.mem_cons_self x rest)
    by_cases hp : p x = true
    · have hq : q x = false := by
        cases hqv : q x
        · rfl
        · exact absurd ⟨hp, hqv⟩ hx
      simp only [List.filter_cons, hp, if_pos, hq, Bool.false_eq_true,
        if_neg, not_false_iff, List.length_cons]
      omega
    · have hp2 : p x = false := by
        cases hpv : p x
        · rfl
        · exact absurd hpv hp
      by_cases hq : q x = true
      · simp only [List.filter_cons, hp2, Bool.false_eq_true, if_neg,
          not_false_iff, hq, if_pos, List.length_cons]
        omega
      · have hq2 : q x = false := by
          cases hqv : q x
          · rfl
          · exact absurd hqv hq
        simp only [List.filter_cons, hp2, hq2, Bool.false_eq_true,
          if_neg, not_false_iff, List.length_cons]
        omega

/-- Key counting step of the termination argument for the constant-term
elimination rule: after removing every matched term and dropping resolved
equations, the surviving term count plus the number of requested quadratic
terms plus the number of constant-containing equations is at most the
original term count. -/
theorem elimDec (sub : ZeroSubstitution) (dp : Polynomial → Bool)
    (hdp : ∀ c : Term, c.is_constant = true → dp [c] = true)
    (hconst : ∀ u : Term, u.is_constant = true →
      sub.is_zeroed u = false) :
    ∀ l : List Polynomial,
      (∀ P ∈ l, P.any Term.is_constant = true →
        (P.filter Term.is_constant).length = 1) →
      (∀ P ∈ l, P.any Term.is_constant = true →
        ∀ t ∈ P, t.is_constant = false → sub.is_zeroed t = true) →
      polysTerms ((l.map (fun P =>
          P.filter (fun t => !(sub.is_zeroed t)))).filter
            (fun Q => !(dp Q))) +
        polysTerms ((l.filter (fun P => P.any Term.is_constant)).map
          (fun P => P.filter Term.is_quadratic)) +
        (l.filter (fun P => P.any Term.is_constant)).length
      ≤ polysTerms l := by
  intro l
  induction l with
  | nil => simp [polysTerms]
  | cons P rest ih =>
    intro h1 h2
    have hrec := ih
      (fun Q hQ => h1 Q (List.mem_cons_of_mem P hQ))
      (fun Q hQ => h2 Q (List.mem_cons_of_mem P hQ))
    by_cases htrig : P.any Term.is_constant = true
    · have hfeq : P.filter (fun t => !(sub.is_zeroed t)) =
          P.filter Term.is_constant := by
        refine List.filter_congr ?_
        intro t htP
        by_cases hc : t.is_constant = true
        · rw [hconst t hc, hc]
          rfl
        · have hc2 : t.is_constant = false := by
            cases hcv : t.is_constant
            · rfl
            · exact absurd hcv hc
          rw [h2 P (List.mem_cons_self P rest) htrig t htP hc2, hc2]
          rfl
      have hlen1 : (P.filter Term.is_constant).length = 1 :=
        h1 P (List.mem_cons_self P rest) htrig
      obtain ⟨c, hc⟩ : ∃ c, P.filter Term.is_constant = [c] :=
        List.length_eq_one.mp hlen1
      have hcconst : c.is_constant = true := by
        have : c ∈ P.filter Term.is_constant := by
          rw [hc]
          exact List.mem_singleton_self c
        exact (List.mem_filter.mp this).2
      have hdrop : dp (P.filter (fun t => !(sub.is_zeroed t))) = true := by
        rw [hfeq, hc]
        exact hdp c hcconst
      have hdisj : (P.filter Term.is_quadratic).length + 1 ≤ P.length := by
        have := length_filter_disjoint Term.is_quadratic Term.is_constant
          P (fun x _ hx => by
            have h1x := hx.1
            have h2x := hx.2
            rw [Term.is_quadratic] at h1x
            rw [Term.is_constant] at h2x
            simp only [Bool.and_eq_true] at h1x
            simp only [Bool.not_eq_true', Bool.or_eq_false_iff] at h2x
            rw [h2x.1] at h1x
            exact Bool.false_ne_true h1x.1)
        omega
      simp only [List.map_cons, List.filter_cons, htrig, if_pos, hdrop,
        Bool.not_true, Bool.false_eq_true, if_neg, not_false_iff,
        List.map_cons, polysTerms_cons, List.length_cons]
      omega
    · simp only [List.map_cons, List.filter_cons, htrig,
        Bool.false_eq_true, if_neg, not_false_iff, polysTerms_cons]
      by_cases hdpP : dp (P.filter (fun t => !(sub.is_zeroed t))) = true
      · simp only [hdpP, Bool.not_true, Bool.false_eq_true, if_neg,
          not_false_iff]
        omega
      · simp only [Bool.not_eq_true] at hdpP
        simp only [hdpP, Bool.not_false, if_pos, polysTerms_cons]
        have := List.length_filter_le (fun t => !(sub.is_zeroed t)) P
        omega

/-- The constant-term-elimination step strictly decreases the measure. -/
theorem measure_buildSub_lt (S : System)
    (hU : S.has_unsatisfiable_equation = false)
    (hne : (buildSub S).is_empty = false) :
    measure (S.apply (buildSub S)) < measure S := by
  obtain ⟨c1, c2, c3⟩ := buildSub_components S
  have hconst := buildSub_const_not_zeroed S
  have hdp1 : ∀ c : Term, c.is_constant = true →
      Polynomial.is_one [c] = true := by
    intro c hc
    simp [Polynomial.is_one, hc]
  have hdp2 : ∀ c : Term, c.is_constant = true →
      Polynomial.is_zero_or_one [c] = true := by
    intro c hc
    simp [Polynomial.is_zero_or_one, Polynomial.is_one,
      Polynomial.is_zero, hc]
  have hones := elimDec (buildSub S) Polynomial.is_one hdp1 hconst S.ones
    (fun P hP ht => const_count_eq_one S P hU (Or.inl hP) ht)
    (fun P hP ht t htP hnc =>
      buildSub_zeroes_nonconst S P (Or.inl hP) ht t htP hnc)
  have hunk := elimDec (buildSub S) Polynomial.is_zero_or_one hdp2 hconst
    S.unknown
    (fun P hP ht => const_count_eq_one S P hU (Or.inr hP) ht)
    (fun P hP ht t htP hnc =>
      buildSub_zeroes_nonconst S P (Or.inr hP) ht t htP hnc)
  have hterms : (buildSub S).zeroed_terms.length =
      polysTerms ((S.ones.filter (fun P => P.any Term.is_constant)).map
        (fun P => P.filter Term.is_quadratic)) +
      polysTerms ((S.unknown.filter (fun P =>
        P.any Term.is_constant)).map
          (fun P => P.filter Term.is_quadratic)) := by
    rw [c3, List.length_append, List.length_flatten,
      List.length_flatten]
    rfl
  have htrig : 1 ≤ (S.ones.filter (fun P =>
      P.any Term.is_constant)).length +
        (S.unknown.filter (fun P => P.any Term.is_constant)).length := by
    by_contra hcon
    push_neg at hcon
    have hz : (S.ones.filter (fun P =>
        P.any Term.is_constant)).length = 0 ∧
        (S.unknown.filter (fun P =>
          P.any Term.is_constant)).length = 0 := by omega
    have ho : S.ones.filter (fun P => P.any Term.is_constant) = [] :=
      List.length_eq_zero.mp hz.1
    have hu : S.unknown.filter (fun P => P.any Term.is_constant) = [] :=
      List.length_eq_zero.mp hz.2
    have : (buildSub S).is_empty = true := by
      rw [ZeroSubstitution.is_empty, c1, c2, c3, ho, hu]
      simp
    rw [this] at hne
    simp at hne
  have h1 : (S.apply (buildSub S)).active_ps.length ≤
      S.active_ps.length := length_drop_all_le _ _
  have h2 : (S.apply (buildSub S)).active_qs.length ≤
      S.active_qs.length := length_drop_all_le _ _
  have h3 : (S.apply (buildSub S)).zeros.length ≤
      S.zeros.length + (buildSub S).zeroed_terms.length := by
    show (_ ++ _ : List Term).length ≤ _
    rw [List.length_append]
    have := List.length_filter_le (fun t =>
      !((buildSub S).is_zeroed t)) S.zeros
    have := List.length_filter_le (fun t =>
      !(contains (buildSub S).zeroed_ps t.p_index) &&
        !(contains (buildSub S).zeroed_qs t.q_index))
      (buildSub S).zeroed_terms
    omega
  have h4 : polysTerms (S.apply (buildSub S)).ones +
      polysTerms ((S.ones.filter (fun P =>
        P.any Term.is_constant)).map
          (fun P => P.filter Term.is_quadratic)) +
      (S.ones.filter (fun P => P.any Term.is_constant)).length ≤
        polysTerms S.ones := hones
  have h5 : polysTerms (S.apply (buildSub S)).unknown +
      polysTerms ((S.unknown.filter (fun P =>
        P.any Term.is_constant)).map
          (fun P => P.filter Term.is_quadratic)) +
      (S.unknown.filter (fun P => P.any Term.is_constant)).length ≤
        polysTerms S.unknown := hunk
  simp only [measure]
  omega

theorem findOnesSingleton_spec (l : List Polynomial) (t : Term)
    (h : findOnesSingleton l = some t) :
    [t] ∈ l ∧ (t.is_quadratic || t.has_p || t.has_q) = true := by
  induction l with
  | nil => simp [findOnesSingleton] at h
  | cons P rest ih =>
    match P with
    | [] =>
      rw [show findOnesSingleton ([] :: rest) = findOnesSingleton rest
        from rfl] at h
      obtain ⟨hmem, hcond⟩ := ih h
      exact ⟨List.mem_cons_of_mem _ hmem, hcond⟩
    | [u] =>
      rw [show findOnesSingleton ([u] :: rest) =
          (if u.is_quadratic || u.has_p || u.has_q then some u
            else findOnesSingleton rest) from rfl] at h
      by_cases hcond : (u.is_quadratic || u.has_p || u.has_q) = true
      · rw [if_pos hcond] at h
        obtain rfl : u = t := Option.some.inj h
        exact ⟨List.mem_cons_self _ _, hcond⟩
      · rw [if_neg hcond] at h
        obtain ⟨hmem, hcond2⟩ := ih h
        exact ⟨List.mem_cons_of_mem _ hmem, hcond2⟩
    | u :: v :: P2 =>
      rw [show findOnesSingleton ((u :: v :: P2) :: rest) =
          findOnesSingleton rest from rfl] at h
      obtain ⟨hmem, hcond⟩ := ih h
      exact ⟨List.mem_cons_of_mem _ hmem, hcond⟩

/-- A fired forced-one rule strictly decreases the measure. -/
theorem measure_onesSingletonStep_lt (S : System) (t : Term)
    (h : findOnesSingleton S.ones = some t) :
    measure (onesSingletonStep S t) < measure S := by
  obtain ⟨hmem, hcond⟩ := findOnesSingleton_spec S.ones t h
  have hteta : Term.mk t.p_index t.q_index = t := by
    cases t
    rfl
  rw [onesSingletonStep]
  by_cases hq : t.is_quadratic = true
  · rw [if_pos hq]
    have hm : t.q_index ≠ 0 := by
      rw [Term.is_quadratic] at hq
      simp only [Bool.and_eq_true] at hq
      have := hq.2
      rw [Term.has_q] at this
      simpa using this
    exact measure_quad_step_lt S t.p_index t.q_index
      (by rw [hteta]; exact hmem) hm
  · rw [if_neg hq]
    by_cases hp : t.has_p = true
    · rw [if_pos hp]
      have hq0 : t.q_index = 0 := by
        rw [Term.is_quadratic] at hq
        simp only [Bool.and_eq_true, not_and] at hq
        have := hq hp
        rw [Term.has_q] at this
        simpa using this
      refine measure_set_p_one_lt_linear S t.p_index ?_
      rw [← hq0, hteta]
      exact hmem
    · rw [if_neg hp]
      have hq2 : t.has_q = true := by
        rcases Bool.or_eq_true _ _ |>.mp hcond with hc | hc
        · rcases Bool.or_eq_true _ _ |>.mp hc with hc2 | hc2
          · exact absurd hc2 hq
          · exact absurd hc2 hp
        · exact hc
      have hp0 : t.p_index = 0 := by
        by_contra hne
        apply hp
        rw [Term.has_p]
        simpa using hne
      refine measure_set_q_one_lt_linear S t.q_index ?_
      rw [← hp0, hteta]
      exact hmem

theorem simplifyF_terminates (fuel : Nat) :
    ∀ S, measure S < fuel → simplifyF fuel S ≠ none := by
  induction fuel with
  | zero =>
    intro S h
    exact absurd h (Nat.not_lt_zero _)
  | succ n ih =>
    intro S hc
    rw [simplifyF]
    by_cases h1 : S.has_unsatisfiable_equation = true
    · rw [if_pos h1]
      simp
    rw [if_neg h1]
    by_cases h2 : S.is_solved = true
    · rw [if_pos h2]
      simp
    rw [if_neg h2]
    cases hfind : findOnesSingleton S.ones with
    | some t =>
      dsimp only
      have hdec := measure_onesSingletonStep_lt S t hfind
      by_cases hemp : (onesSingletonStep S t).is_empty = true
      · rw [if_pos hemp]
        simp
      · rw [if_neg hemp]
        exact ih _ (by omega)
    | none =>
      dsimp only
      by_cases hsub : (buildSub S).is_empty = true
      · rw [if_pos hsub]
        simp
      · rw [if_neg hsub]
        have hU : S.has_unsatisfiable_equation = false := by
          cases hv : S.has_unsatisfiable_equation
          · rfl
          · exact absurd hv h1
        have hne : (buildSub S).is_empty = false := by
          cases hv : (buildSub S).is_empty
          · rfl
          · exact absurd hv hsub
        have hdec := measure_buildSub_lt S hU hne
        by_cases hemp : (S.apply (buildSub S)).is_empty = true
        · rw [if_pos hemp]
          simp
        · rw [if_neg hemp]
          exact ih _ (by omega)

/-- C6: the Simplifier terminates on every input System. Each recursive
invocation of `simplify` — after pinning the variable(s) of a singleton
`ones` equation to one, or after applying a non-empty constant-term
elimination batch — strictly decreases the measure (active variables +
pinned zero terms + term occurrences), so `simplifyF` with fuel exceeding
the measure never exhausts its fuel: `simplify` reaches a fixed point or
a contradiction in finitely many steps. -/
theorem c6_simplify_terminates :
    (∀ S t, findOnesSingleton S.ones = some t →
      measure (onesSingletonStep S t) < measure S) ∧
    (∀ S : System, S.has_unsatisfiable_equation = false →
      (buildSub S).is_empty = false →
      measure (S.apply (buildSub S)) < measure S) ∧
    (∀ fuel S, measure S < fuel → simplifyF fuel S ≠ none) :=
  ⟨measure_onesSingletonStep_lt, measure_buildSub_lt,
    fun fuel S h => simplifyF_terminates fuel S h⟩

/-- C6 witness: on the concrete (1, 1) initial System the fuel bound is
sufficient. -/
theorem c6_simplify_terminates_witness :
    simplifyF 3 (mkSystem 1 1) ≠ none :=
  c6_simplify_terminates.2.2 3 (mkSystem 1 1) (by decide)

/-! ### C5: branch selection priority of the search driver -/

/-- `find_unknown_variable` returns either the null term or a linear term
occurring as the whole of a singleton `unknown` equation. -/
theorem findUnknownVarAux_cases (l : List Polynomial) :
    System.findUnknownVarAux l = ⟨0, 0⟩ ∨
      ([System.findUnknownVarAux l] ∈ l ∧
        (System.findUnknownVarAux l).is_linear = true) := by
  induction l with
  | nil => exact Or.inl rfl
  | cons P rest ih =>
    match P with
    | [] =>
      rw [show System.findUnknownVarAux ([] :: rest) =
          System.findUnknownVarAux rest from rfl]
      rcases ih with ih | ⟨ih1, ih2⟩
      · exact Or.inl ih
      · exact Or.inr ⟨List.mem_cons_of_mem _ ih1, ih2⟩
    | [u] =>
      rw [show System.findUnknownVarAux ([u] :: rest) =
          (if u.is_linear then u else System.findUnknownVarAux rest)
        from rfl]
      by_cases hu : u.is_linear = true
      · rw [if_pos hu]
        exact Or.inr ⟨List.mem_cons_self _ _, hu⟩
      · rw [if_neg hu]
        rcases ih with ih | ⟨ih1, ih2⟩
        · exact Or.inl ih
        · exact Or.inr ⟨List.mem_cons_of_mem _ ih1, ih2⟩
    | u :: v :: P2 =>
      rw [show System.findUnknownVarAux ((u :: v :: P2) :: rest) =
          System.findUnknownVarAux rest from rfl]
      rcases ih with ih | ⟨ih1, ih2⟩
      · exact Or.inl ih
      · exact Or.inr ⟨List.mem_cons_of_mem _ ih1, ih2⟩

/-- If some `unknown` equation is a singleton linear monomial, the scan
finds a linear term. -/
theorem findUnknownVarAux_linear (l : List Polynomial) (u : Term)
    (hu : [u] ∈ l) (hlin : u.is_linear = true) :
    (System.findUnknownVarAux l).is_linear = true := by
  induction l with
  | nil => simp at hu
  | cons P rest ih =>
    rcases List.mem_cons.mp hu with heq | hmem
    · rw [← heq]
      rw [show System.findUnknownVarAux ([u] :: rest) =
          (if u.is_linear then u else System.findUnknownVarAux rest)
        from rfl]
      rw [if_pos hlin]
      exact hlin
    · match P with
      | [] =>
        rw [show System.findUnknownVarAux ([] :: rest) =
            System.findUnknownVarAux rest from rfl]
        exact ih hmem
      | [w] =>
        rw [show System.findUnknownVarAux ([w] :: rest) =
            (if w.is_linear then w else System.findUnknownVarAux rest)
          from rfl]
        by_cases hw : w.is_linear = true
        · rw [if_pos hw]
          exact hw
        · rw [if_neg hw]
          exact ih hmem
      | w :: x :: P2 =>
        rw [show System.findUnknownVarAux ((w :: x :: P2) :: rest) =
            System.findUnknownVarAux rest from rfl]
        exact ih hmem

/-- When `find_unknown_variable` returns the null term, no `unknown`
equation is a singleton linear monomial. -/
theorem findUnknownVarAux_none (l : List Polynomial)
    (h : System.findUnknownVarAux l = ⟨0, 0⟩) :
    ∀ P ∈ l, ∀ u : Term, P = [u] → u.is_linear = false := by
  intro P hP u hPu
  subst hPu
  cases hv : u.is_linear
  · rfl
  · have := findUnknownVarAux_linear l u hP hv
    rw [h] at this
    simpa [Term.is_linear, Term.has_p, Term.has_q] using this

/-- Invariant proof for the strict-minimum scan of `analyze`: the result
indexes a shortest equation, and every earlier equation is strictly
longer. -/
theorem bestIndexGo_spec (rest : List Polynomial) :
    ∀ (l0 : List Polynomial) (best : Nat),
      best < l0.length →
      (∀ j < l0.length,
        (l0.getD best []).length ≤ (l0.getD j []).length) →
      (∀ j < best, (l0.getD best []).length < (l0.getD j []).length) →
      bestIndexGo l0.length best (l0.getD best []).length rest <
          (l0 ++ rest).length ∧
        (∀ j < (l0 ++ rest).length,
          ((l0 ++ rest).getD
              (bestIndexGo l0.length best (l0.getD best []).length rest)
              []).length ≤ ((l0 ++ rest).getD j []).length) ∧
        (∀ j < bestIndexGo l0.length best
            (l0.getD best []).length rest,
          ((l0 ++ rest).getD
              (bestIndexGo l0.length best (l0.getD best []).length rest)
              []).length < ((l0 ++ rest).getD j []).length) := by
  induction rest with
  | nil =>
    intro l0 best hb hle hlt
    rw [bestIndexGo]
    refine ⟨by simpa using hb, ?_, ?_⟩
    · intro j hj
      simp only [List.append_nil] at hj ⊢
      exact hle j hj
    · intro j hj
      simp only [List.append_nil]
      exact hlt j hj
  | cons P rest2 ih =>
    intro l0 best hb hle hlt
    rw [bestIndexGo]
    have hgetP : (l0 ++ [P]).getD l0.length [] = P := by
      rw [List.getD_append_right _ _ _ _ (le_refl _)]
      simp
    have hassoc : (l0 ++ [P]) ++ rest2 = l0 ++ (P :: rest2) := by
      simp
    have hlen : l0.length + 1 = (l0 ++ [P]).length := by simp
    by_cases hless : P.length < (l0.getD best []).length
    · rw [if_pos hless]
      have hquery : ((l0 ++ [P]).getD l0.length []).length = P.length := by
        rw [hgetP]
      have hmain := ih (l0 ++ [P]) l0.length
        (by simp)
        (by
          intro j hj
          rw [hquery]
          simp only [List.length_append, List.length_cons,
            List.length_nil] at hj
          by_cases hjl : j < l0.length
          · rw [List.getD_append _ _ _ _ hjl]
            exact le_of_lt (lt_of_lt_of_le hless (hle j hjl))
          · have hj2 : j = l0.length := by omega
            subst hj2
            rw [hgetP]
        )
        (by
          intro j hj
          rw [hquery, List.getD_append _ _ _ _ hj]
          exact lt_of_lt_of_le hless (hle j hj)
        )
      rw [hquery, ← hlen, hassoc] at hmain
      exact hmain
    · rw [if_neg hless]
      have hbest2 : best < (l0 ++ [P]).length := by
        simp only [List.length_append, List.length_cons, List.length_nil]
        omega
      have hgetbest : (l0 ++ [P]).getD best [] = l0.getD best [] :=
        List.getD_append _ _ _ _ hb
      have hmain := ih (l0 ++ [P]) best hbest2
        (by
          intro j hj
          rw [hgetbest]
          simp only [List.length_append, List.length_cons,
            List.length_nil] at hj
          by_cases hjl : j < l0.length
          · rw [List.getD_append _ _ _ _ hjl]
            exact hle j hjl
          · have hj2 : j = l0.length := by omega
            subst hj2
            rw [hgetP]
            omega
        )
        (by
          intro j hj
          rw [hgetbest, List.getD_append _ _ _ _ (lt_trans hj hb)]
          exact hlt j hj
        )
      rw [hgetbest, ← hlen, hassoc] at hmain
      exact hmain

theorem findBestIndex_spec (l : List Polynomial) (hl : l ≠ []) :
    findBestIndex l < l.length ∧
      (∀ j < l.length,
        (l.getD (findBestIndex l) []).length ≤ (l.getD j []).length) ∧
      (∀ j < findBestIndex l,
        (l.getD (findBestIndex l) []).length < (l.getD j []).length) := by
  match l with
  | [] => exact absurd rfl hl
  | P0 :: rest =>
    have h := bestIndexGo_spec rest [P0] 0 (by simp)
      (by
        intro j hj
        simp only [List.length_cons, List.length_nil] at hj
        have : j = 0 := by omega
        subst this
        exact le_refl _)
      (by intro j hj; omega)
    simp only [List.length_cons, List.length_nil, List.getD] at h
    rw [show ([P0] : List Polynomial) ++ rest = P0 :: rest from rfl] at h
    rw [show findBestIndex (P0 :: rest) =
        bestIndexGo 1 0 P0.length rest from rfl]
    convert h using 2

/-- C5: after simplification stalls at a fixed point, the search driver
selects its branch point in the fixed priority order — (a) a variable
occurring as the sole linear monomial of an `unknown` equation, pinned to
0 and then 1; (b) otherwise the first pinned-zero (quadratic) term of
`zeros`, split into p-factor-zero and then q-factor-zero; (c) otherwise
the `unknown` equation with the fewest monomials, ties broken by first
occurrence, moved to zero-elimination and then into `ones`; (d) otherwise
a Leaf is emitted — and in every branch the zero/"false" sub-case is
explored before the one/"true" sub-case (its trace precedes the other's
in the event list). -/
theorem c5_branch_priority (n : Nat) (S sp : System)
    (evs : List SearchEvent) (hS : S.is_empty = false)
    (hsimp : simplify S = some sp)
    (hzq : ∀ t ∈ sp.zeros, t.is_quadratic = true)
    (hrun : analyzeF (n + 1) S = some evs) :
    (sp.find_unknown_variable.has_p = true →
      ([sp.find_unknown_variable] ∈ sp.unknown ∧
        sp.find_unknown_variable.is_linear = true) ∧
      ∃ a b,
        analyzeF n (sp.set_p_zero sp.find_unknown_variable.p_index) =
            some a ∧
          analyzeF n (sp.set_p_one sp.find_unknown_variable.p_index) =
              some b ∧
            evs = SearchEvent.branchP sp.find_unknown_variable.p_index ::
              a ++ b) ∧
    (sp.find_unknown_variable.has_p = false →
      sp.find_unknown_variable.has_q = true →
      ([sp.find_unknown_variable] ∈ sp.unknown ∧
        sp.find_unknown_variable.is_linear = true) ∧
      ∃ a b,
        analyzeF n (sp.set_q_zero sp.find_unknown_variable.q_index) =
            some a ∧
          analyzeF n (sp.set_q_one sp.find_unknown_variable.q_index) =
              some b ∧
            evs = SearchEvent.branchQ sp.find_unknown_variable.q_index ::
              a ++ b) ∧
    (∀ zt rest, sp.find_unknown_variable = ⟨0, 0⟩ →
      sp.zeros = zt :: rest →
      (∀ P ∈ sp.unknown, ∀ u : Term, P = [u] → u.is_linear = false) ∧
      zt.is_quadratic = true ∧
      ∃ a b, analyzeF n (sp.set_p_zero zt.p_index) = some a ∧
        analyzeF n (sp.set_q_zero zt.q_index) = some b ∧
          evs = SearchEvent.branchZ zt :: a ++ b) ∧
    (sp.find_unknown_variable = ⟨0, 0⟩ → sp.zeros = [] →
      sp.unknown ≠ [] →
      (∀ P ∈ sp.unknown, ∀ u : Term, P = [u] → u.is_linear = false) ∧
      (findBestIndex sp.unknown < sp.unknown.length ∧
        (∀ j < sp.unknown.length,
          (sp.unknown.getD (findBestIndex sp.unknown) []).length ≤
            (sp.unknown.getD j []).length) ∧
        (∀ j < findBestIndex sp.unknown,
          (sp.unknown.getD (findBestIndex sp.unknown) []).length <
            (sp.unknown.getD j []).length)) ∧
      ∃ a b,
        analyzeF n (move_unknown_to_zero sp (findBestIndex sp.unknown)) =
            some a ∧
          analyzeF n (move_unknown_to_one sp (findBestIndex sp.unknown)) =
              some b ∧
            evs = SearchEvent.branchU (findBestIndex sp.unknown) ::
              a ++ b) ∧
    (sp.find_unknown_variable = ⟨0, 0⟩ → sp.zeros = [] →
      sp.unknown = [] → evs = [SearchEvent.leaf sp]) := by
  have hv : sp.find_unknown_variable =
      System.findUnknownVarAux sp.unknown := rfl
  rw [analyzeF] at hrun
  rw [if_neg (by simp [hS])] at hrun
  rw [hsimp] at hrun
  dsimp only at hrun
  refine ⟨?_, ?_, ?_, ?_, ?_⟩
  · intro hp
    rw [if_pos hp] at hrun
    obtain ⟨a, b, ha, hb, rfl⟩ := branch_dest n _ _ _ _ hrun
    refine ⟨?_, a, b, ha, hb, rfl⟩
    rcases findUnknownVarAux_cases sp.unknown with hnull | ⟨hmem, hlin⟩
    · rw [hv, hnull] at hp
      simp [Term.has_p] at hp
    · rw [hv]
      exact ⟨hmem, hlin⟩
  · intro hp hq
    rw [if_neg (by simp [hp]), if_pos hq] at hrun
    obtain ⟨a, b, ha, hb, rfl⟩ := branch_dest n _ _ _ _ hrun
    refine ⟨?_, a, b, ha, hb, rfl⟩
    rcases findUnknownVarAux_cases sp.unknown with hnull | ⟨hmem, hlin⟩
    · rw [hv, hnull] at hq
      simp [Term.has_q] at hq
    · rw [hv]
      exact ⟨hmem, hlin⟩
  · intro zt rest hnull hzeros
    rw [if_neg (by rw [hnull]; simp [Term.has_p]),
      if_neg (by rw [hnull]; simp [Term.has_q]), hzeros] at hrun
    dsimp only at hrun
    obtain ⟨a, b, ha, hb, rfl⟩ := branch_dest n _ _ _ _ hrun
    refine ⟨findUnknownVarAux_none sp.unknown (hv ▸ hnull), ?_,
      a, b, ha, hb, rfl⟩
    exact hzq zt (hzeros ▸ List.mem_cons_self zt rest)
  · intro hnull hzeros hne
    rw [if_neg (by rw [hnull]; simp [Term.has_p]),
      if_neg (by rw [hnull]; simp [Term.has_q]), hzeros] at hrun
    dsimp only at hrun
    obtain ⟨u0, rest2, hJ⟩ : ∃ u0 rest2, sp.unknown = u0 :: rest2 := by
      cases hu : sp.unknown with
      | nil => exact absurd hu hne
      | cons u0 rest2 => exact ⟨u0, rest2, rfl⟩
    rw [hJ] at hrun
    dsimp only at hrun
    obtain ⟨a, b, ha, hb, rfl⟩ := branch_dest n _ _ _ _ hrun
    rw [hJ]
    refine ⟨?_, findBestIndex_spec (u0 :: rest2) (by simp),
      a, b, ?_, ?_, rfl⟩
    · rw [← hJ]
      exact findUnknownVarAux_none sp.unknown (hv ▸ hnull)
    · exact ha
    · exact hb
  · intro hnull hzeros hnone
    rw [if_neg (by rw [hnull]; simp [Term.has_p]),
      if_neg (by rw [hnull]; simp [Term.has_q]), hzeros, hnone] at hrun
    dsimp only at hrun
    exact (Option.some.inj hrun).symm

/-- C5 witness: a concrete fixed-point System whose branch point is the
sole linear monomial `p_1` of an `unknown` equation, explored zero side
first. -/
theorem c5_branch_priority_witness :
    ([(⟨1, 0⟩ : Term)] ∈
        (⟨[1], [1], [], [[⟨1, 1⟩, ⟨1, 0⟩]], [[⟨1, 0⟩]]⟩ :
          System).unknown ∧
      Term.is_linear ⟨1, 0⟩ = true) ∧
    ∃ a b,
      analyzeF 7 (System.set_p_zero
        ⟨[1], [1], [], [[⟨1, 1⟩, ⟨1, 0⟩]], [[⟨1, 0⟩]]⟩ 1) = some a ∧
      analyzeF 7 (System.set_p_one
        ⟨[1], [1], [], [[⟨1, 1⟩, ⟨1, 0⟩]], [[⟨1, 0⟩]]⟩ 1) = some b ∧
      [SearchEvent.branchP 1] = SearchEvent.branchP 1 :: a ++ b :=
  (c5_branch_priority 7
    ⟨[1], [1], [], [[⟨1, 1⟩, ⟨1, 0⟩]], [[⟨1, 0⟩]]⟩
    ⟨[1], [1], [], [[⟨1, 1⟩, ⟨1, 0⟩]], [[⟨1, 0⟩]]⟩
    [SearchEvent.branchP 1] (by decide) (by decide) (by simp)
    (by decide)).1 (by decide)

end ZeroOneSolver
